import Mathlib

/-!
# TIK tokenizer and ICU translator: a shallow embedding

This file embeds the TIK ("Textual Internationalization Key") tokenizer,
parser-level data model, configuration validation and ICU-message translator
in Lean and proves the specification-level properties about them.

Modelling conventions:
* Go strings are modelled as `List Char` (`Str`); offsets are code-point
  offsets.  The Go implementation indexes bytes but decodes runes at every
  whitespace / case check; at the code-point granularity every index
  arithmetic step of the Go code (`+1` per scanned character, `+2` for the
  opener brace and the mandatory space of a plural block, span bounds) maps
  one-to-one onto the embedding.
* The byte-scanning `for` loops of the Go code (prefix-space skip, suffix
  trim, backslash counting) are embedded by their `takeWhile`
  characterisation, which performs the identical character-by-character
  scan.
* `unicode.IsSpace` is embedded as the exact White_Space code-point set used
  by Go's `unicode.IsSpace`.
* `unicode.ToLower` (used by the case-insensitive magic-constant matcher) is
  embedded as ASCII lowering; every configured constant of the repository is
  ASCII.
* The main directive-scanning loop of `Tokenizer.Tokenize` is embedded with
  an explicit fuel parameter so that all definitions compute by kernel
  reduction; `Tokenize` supplies fuel `s.length + 1`, which dominates the
  loop's strictly increasing scan offset, and the fuel-exhaustion branch is
  marked by the artificial error kind `fuelExhausted`.
* Go functions that return `error` are embedded as `Option`/`Except`
  returning values; `nil` error is `none`/`.ok`.

Special characters are spelled via explicit code points to keep the source
ASCII-clean: `lbrace`/`rbrace` are the two curly braces, `revSolidus` is the
backslash, `quoteChar` the double quote and `squote` the apostrophe.
-/

namespace TikSpec

abbrev Str := List Char

def lbrace : Char := Char.ofNat 123

def rbrace : Char := Char.ofNat 125

def revSolidus : Char := Char.ofNat 92

def quoteChar : Char := Char.ofNat 34

def squote : Char := Char.ofNat 39

/-- Go `unicode.IsSpace`: the Unicode White_Space property
(Latin-1 fast path plus the White_Space table). -/
def isSpaceRune (c : Char) : Bool :=
  [9, 10, 11, 12, 13, 32, 0x85, 0xA0, 0x1680,
   0x2000, 0x2001, 0x2002, 0x2003, 0x2004, 0x2005, 0x2006, 0x2007,
   0x2008, 0x2009, 0x200A, 0x2028, 0x2029, 0x202F, 0x205F, 0x3000].contains c.toNat

/-- Character at index `i`, the null character out of range
(Go never reads out of range on the traced paths). -/
def charAt (s : Str) (i : Nat) : Char := s.getD i (Char.ofNat 0)

/-- Go slice `s[a:b]` (for `a ≤ b ≤ len s` on all traced paths). -/
def sliceStr (s : Str) (a b : Nat) : Str := (s.drop a).take (b - a)

/-- First index `≥ off` whose character satisfies `p`
(Go `strings.IndexAny`/`strings.IndexByte` on the suffix `s[off:]`,
with the offset added back). -/
def findIdxFrom (p : Char → Bool) (s : Str) (off : Nat) : Option Nat :=
  ((s.drop off).findIdx? p).map (off + ·)

/-- Go `strings.IndexAny(s[off:], "\x7b\x7d")` (adjusted to an absolute index):
the combined search for the next brace of either kind. -/
def findBraceFrom (s : Str) (off : Nat) : Option Nat :=
  findIdxFrom (fun c => c == lbrace || c == rbrace) s off

/-- Go `strings.IndexByte(s[off:], c)` adjusted to an absolute index. -/
def findCharFrom (c : Char) (s : Str) (off : Nat) : Option Nat :=
  findIdxFrom (· == c) s off

/-- The `for offset < len(s) { … if !unicode.IsSpace(l) break … }` prefix-space
skipping loop of `Tokenizer.Tokenize`: advances `off` past the whitespace run. -/
def skipSpacesFrom (s : Str) (off : Nat) : Nat :=
  off + ((s.drop off).takeWhile isSpaceRune).length

/-- The suffix-space trimming loop of `Tokenizer.Tokenize`
(`for indexEnd >= 0 { … DecodeLastRuneInString(s[lo:indexEnd]) … }`):
moves `hi` down past the trailing whitespace run of `s[lo:hi]`. -/
def trimEndIdx (s : Str) (lo hi : Nat) : Nat :=
  hi - ((sliceStr s lo hi).reverse.takeWhile isSpaceRune).length

/-- Go `isEscaped(s, i-1)`: whether the number of consecutive reverse-solidus
characters immediately before index `i` is odd. -/
def escapedAt (s : Str) (i : Nat) : Bool :=
  ((s.take i).reverse.takeWhile (· == revSolidus)).length % 2 == 1

/-! ## Token data model (tik.go) -/

inductive TokenType where
  | context
  | stringLiteral
  | stringPlaceholder
  | number
  | cardinalPluralStart
  | cardinalPluralEnd
  | ordinalPlural
  | genderPronoun
  | timeShort
  | timeShortSeconds
  | timeFullMonthAndDay
  | timeShortMonthAndDay
  | timeFullMonthAndYear
  | timeWeekday
  | timeDateAndShort
  | timeYear
  | timeFull
  | currencyRounded
  | currencyFull
  | currencyCodeRounded
  | currencyCodeFull
deriving DecidableEq, Repr

/-- A lexical TIK token: half-open span `[indexStart, indexEnd)` plus type. -/
structure Token where
  indexStart : Nat
  indexEnd : Nat
  type : TokenType
deriving DecidableEq, Repr

/-- The closed set of symbolic error kinds (the `Err…` values of tik.go and
config.go).  `fuelExhausted` is an artifact of the fuel-based embedding of the
scan loop; it is unreachable for the fuel `Tokenize` supplies. -/
inductive ErrKind where
  | textEmpty
  | unexpClosure
  | unknownPlaceholder
  | confMagicConstantNonUnique
  | confMagicConstantInvalid
  | confMissingDefault
  | stringPlaceholderEmpty
  | cardinalPluralEmpty
  | directiveStartsCardinalPlural
  | stringPlaceholderInvSpace
  | stringPlaceholderIllegalChars
  | unclosedPlaceholder
  | nestedPluralization
  | contextUnclosed
  | contextEmpty
  | contextInvalid
  | fuelExhausted
deriving DecidableEq, Repr

/-- `ErrParser`: a located error, `(byte-offset, error-kind)`. -/
structure ErrParser where
  index : Nat
  err : ErrKind
deriving DecidableEq, Repr

/-! ## Configuration (config.go) -/

structure MagicConstantOrdinalPlural where
  constant : Str
  defaultICUSuffix : Str
deriving DecidableEq, Repr

structure MagicConstants where
  number : Str
  cardinalPluralStart : Str
  ordinalPlural : MagicConstantOrdinalPlural
  genderPronouns : List Str
  timeShort : Str
  timeShortSeconds : Str
  timeFullMonthAndDay : Str
  timeShortMonthAndDay : Str
  timeFullMonthAndYear : Str
  timeWeekday : Str
  timeDateAndShort : Str
  timeYear : Str
  timeFull : Str
  currencyRounded : Str
  currencyFull : Str
  currencyCodeRounded : Str
  currencyCodeFull : Str
deriving DecidableEq, Repr

structure Config where
  magicConstants : MagicConstants
deriving DecidableEq, Repr

/-- The package-level `defaultConfig` value. -/
def defaultConfig : Config :=
  { magicConstants :=
    { number := "3".data
      cardinalPluralStart := "2".data
      ordinalPlural := { constant := "4th".data, defaultICUSuffix := "th".data }
      genderPronouns :=
        ["they".data, "them".data, "their".data, "theirs".data, "themself".data]
      timeShort := "3:45PM".data
      timeShortSeconds := "3:45:30PM".data
      timeFullMonthAndDay := "April 2".data
      timeShortMonthAndDay := "Apr 2".data
      timeFullMonthAndYear := "Apr 2025".data
      timeWeekday := "Monday".data
      timeDateAndShort := "April 2, 3:45PM".data
      timeYear := "2025".data
      timeFull := "April 2, 3:45:30PM".data
      currencyRounded := "$1".data
      currencyFull := "$1.20".data
      currencyCodeRounded := "USD 1".data
      currencyCodeFull := "USD 1.20".data } }

/-! ## Token stringification (tik.go `Token.String`) -/

/-- `replacerTokenStringify`: replaces `\\` `\x7b`-escape `\x7d`-escape pairs,
left to right, longest match first (Go `strings.NewReplacer`). -/
def unescape : Str → Str
  | c1 :: c2 :: rest =>
    if c1 = revSolidus ∧ c2 = revSolidus then revSolidus :: unescape rest
    else if c1 = revSolidus ∧ c2 = lbrace then lbrace :: unescape rest
    else if c1 = revSolidus ∧ c2 = rbrace then rbrace :: unescape rest
    else c1 :: unescape (c2 :: rest)
  | [c] => [c]
  | [] => []

/-- `Token.String(source)`: slice the span out of the source, fast path when no
reverse solidus occurs, otherwise run the unescaping replacer. -/
def tokenString (source : Str) (t : Token) : Str :=
  let s := sliceStr source t.indexStart t.indexEnd
  if s.contains revSolidus then unescape s else s

/-! ## Directive matching (tik.go `match`, `getPrefixEqualFold`) -/

/-- Go `unicode.ToLower`, restricted to ASCII (all constants in scope are
ASCII). -/
def toLowerGo (c : Char) : Char :=
  if 65 ≤ c.toNat ∧ c.toNat ≤ 90 then Char.ofNat (c.toNat + 32) else c

/-- Go `strings.EqualFold` at the code-point level. -/
def equalFold (a b : Str) : Bool :=
  a.map toLowerGo == b.map toLowerGo

/-- Go `getPrefixEqualFold(s, pfx)`: the leading slice of `s` that case-folds
to `pfx`, or the empty string when `s` does not start with such a slice. -/
def getPrefixEqualFold (s pfx : Str) : Str :=
  if pfx.length ≤ s.length ∧ equalFold (s.take pfx.length) pfx then s.take pfx.length
  else []

/-- Go `match(s, c)`: classify a directive body against the configuration's
vocabulary, in the exact comparison order of the source; `none` is the
`(0, "")` result. -/
def matchDirective (s : Str) (c : Config) : Option (TokenType × Str) :=
  if s ≠ [] ∧ charAt s 0 = quoteChar then some (.stringPlaceholder, s)
  else if equalFold s c.magicConstants.number then
    some (.number, c.magicConstants.number)
  else if equalFold s c.magicConstants.ordinalPlural.constant then
    some (.ordinalPlural, c.magicConstants.ordinalPlural.constant)
  else if equalFold s c.magicConstants.timeShort then
    some (.timeShort, c.magicConstants.timeShort)
  else if equalFold s c.magicConstants.timeShortSeconds then
    some (.timeShortSeconds, c.magicConstants.timeShortSeconds)
  else if equalFold s c.magicConstants.timeFullMonthAndDay then
    some (.timeFullMonthAndDay, c.magicConstants.timeFullMonthAndDay)
  else if equalFold s c.magicConstants.timeShortMonthAndDay then
    some (.timeShortMonthAndDay, c.magicConstants.timeShortMonthAndDay)
  else if equalFold s c.magicConstants.timeFullMonthAndYear then
    some (.timeFullMonthAndYear, c.magicConstants.timeFullMonthAndYear)
  else if equalFold s c.magicConstants.timeWeekday then
    some (.timeWeekday, c.magicConstants.timeWeekday)
  else if equalFold s c.magicConstants.timeDateAndShort then
    some (.timeDateAndShort, c.magicConstants.timeDateAndShort)
  else if equalFold s c.magicConstants.timeYear then
    some (.timeYear, c.magicConstants.timeYear)
  else if equalFold s c.magicConstants.timeFull then
    some (.timeFull, c.magicConstants.timeFull)
  else if equalFold s c.magicConstants.currencyRounded then
    some (.currencyRounded, c.magicConstants.currencyRounded)
  else if equalFold s c.magicConstants.currencyFull then
    some (.currencyFull, c.magicConstants.currencyFull)
  else if equalFold s c.magicConstants.currencyCodeRounded then
    some (.currencyCodeRounded, c.magicConstants.currencyCodeRounded)
  else if equalFold s c.magicConstants.currencyCodeFull then
    some (.currencyCodeFull, c.magicConstants.currencyCodeFull)
  else
    match c.magicConstants.genderPronouns.find? (fun v => equalFold s v) with
    | some v => some (.genderPronoun, v)
    | none =>
      let p := getPrefixEqualFold s c.magicConstants.cardinalPluralStart
      if p ≠ [] then
        if isSpaceRune (charAt s p.length) then some (.cardinalPluralStart, p)
        else none
      else none

/-- tik.go `validateStringPlaceholder`: `some e` is the located error,
`none` success.  Indices are relative to the directive body; the caller adds
`iDir + 2`. -/
def validateStringPlaceholder (s : Str) : Option ErrParser :=
  if s.getLast? ≠ some quoteChar ∨ s.length < 2 then
    some ⟨s.length - 1, .stringPlaceholderIllegalChars⟩
  else
    let inner := (s.drop 1).dropLast
    if inner = [] then some ⟨0, .stringPlaceholderEmpty⟩
    else if isSpaceRune (charAt inner 0) then some ⟨0, .stringPlaceholderInvSpace⟩
    else if isSpaceRune (charAt inner (inner.length - 1)) then
      some ⟨inner.length - 1, .stringPlaceholderInvSpace⟩
    else
      match inner.findIdx? (fun c =>
          c == revSolidus || c == lbrace || c == rbrace || c == quoteChar) with
      | some i => some ⟨i, .stringPlaceholderIllegalChars⟩
      | none => none

/-! ## The tokenizer (tik.go `Tokenizer.Tokenize`) -/

/-- One directive token has been classified (`tp ≠ cardinalPluralStart`,
`tp ≠ none`): the string-placeholder validation, the
`DirectiveStartsCardinalPlural` check and the generic append of
tik.go lines 319-352, shared by `tokenizeScan`. -/
def appendDirectiveTail (buffer : List Token) (iDir iClose : Nat)
    (tp : TokenType) : Except ErrParser (List Token × Nat) :=
  match buffer.getLast? with
  | some t =>
    if t.type = .cardinalPluralStart then
      .error ⟨iDir, .directiveStartsCardinalPlural⟩
    else .ok (buffer ++ [⟨iDir, iClose + 1, tp⟩], iClose + 1)
  | none => .ok (buffer ++ [⟨iDir, iClose + 1, tp⟩], iClose + 1)

def appendDirective (buffer : List Token) (iDir iClose : Nat) (tp : TokenType)
    (directive : Str) : Except ErrParser (List Token × Nat) :=
  if tp = .stringPlaceholder then
    match validateStringPlaceholder directive with
    | some e => .error ⟨e.index + iDir + 2, e.err⟩
    | none => appendDirectiveTail buffer iDir iClose tp
  else appendDirectiveTail buffer iDir iClose tp

/-- The nested scanning loops of `Tokenizer.Tokenize` (tik.go lines 228-353).
State: scan `offset`, start `literalOffset` of the pending literal run, the
open-plural-block flag and the token buffer.  `fuel` bounds the iteration
count; the scan offset strictly increases each iteration, so fuel
`s.length + 1` (what `Tokenize` passes) always suffices. -/
def tokenizeScan (c : Config) (s : Str) :
    Nat → Nat → Nat → Bool → List Token → Except ErrParser (List Token)
  | 0, _, _, _, _ => .error ⟨0, .fuelExhausted⟩
  | fuel + 1, offset, literalOffset, inPlural, buffer =>
    match findBraceFrom s offset with
    | none =>
      -- No further directive: flush the pending literal (suffix-trimmed) and stop.
      if literalOffset ≠ s.length then
        .ok (buffer ++ [⟨literalOffset, trimEndIdx s 0 s.length, .stringLiteral⟩])
      else .ok buffer
    | some iDir =>
      if charAt s iDir = rbrace then
        if !inPlural then
          if escapedAt s iDir then
            -- Escaped closing brace: literal content, keep scanning.
            tokenizeScan c s fuel (iDir + 1) literalOffset false buffer
          else .error ⟨iDir, .unexpClosure⟩
        else
          -- Closing brace of the open plural block.
          let buffer1 :=
            if literalOffset ≠ iDir then
              buffer ++ [⟨literalOffset, iDir, .stringLiteral⟩]
            else buffer
          match buffer1.getLast? with
          | some t =>
            if t.type = .cardinalPluralStart then
              .error ⟨t.indexStart, .cardinalPluralEmpty⟩
            else
              tokenizeScan c s fuel (iDir + 1) (iDir + 1) false
                (buffer1 ++ [⟨iDir, iDir + 1, .cardinalPluralEnd⟩])
          | none =>
            -- Unreachable: inPlural implies the plural-start token is buffered.
            .error ⟨iDir, .cardinalPluralEmpty⟩
      else
        if escapedAt s iDir then
          -- Escaped directive opener: literal content, keep scanning.
          tokenizeScan c s fuel (iDir + 1) literalOffset inPlural buffer
        else
          let buffer1 :=
            if literalOffset ≠ iDir then
              buffer ++ [⟨literalOffset, iDir, .stringLiteral⟩]
            else buffer
          match findCharFrom rbrace s (iDir + 1) with
          | none => .error ⟨iDir, .unclosedPlaceholder⟩
          | some iClose =>
            let directive := sliceStr s (iDir + 1) iClose
            match matchDirective directive c with
            | none => .error ⟨iDir, .unknownPlaceholder⟩
            | some (tp, value) =>
              if tp = .cardinalPluralStart then
                if inPlural then .error ⟨iDir, .nestedPluralization⟩
                else
                  tokenizeScan c s fuel (iDir + value.length + 2)
                    (iDir + value.length + 2) true
                    (buffer1 ++
                      [⟨iDir, iDir + value.length + 2, .cardinalPluralStart⟩])
              else
                match appendDirective buffer1 iDir iClose tp directive with
                | .error e => .error e
                | .ok (buffer2, offset2) =>
                  tokenizeScan c s fuel offset2 offset2 inPlural buffer2

/-- tik.go lines 206-353: the brace-free fast path, else the scan loop. -/
def tokenizeBody (buffer : List Token) (s : Str) (c : Config) (offset : Nat) :
    Except ErrParser (List Token) :=
  if findCharFrom lbrace s offset = none ∧ findCharFrom rbrace s offset = none then
    .ok (buffer ++ [⟨offset, trimEndIdx s offset s.length, .stringLiteral⟩])
  else tokenizeScan c s (s.length + 1) offset offset false buffer

/-- `Tokenizer.Tokenize(buffer, s, c)`: prefix-whitespace skip, the optional
`[context]` prefix, then the text body. -/
def Tokenize (buffer : List Token) (s : Str) (c : Config) :
    Except ErrParser (List Token) :=
  let offset := skipSpacesFrom s 0
  if s.length ≤ offset then .error ⟨0, .textEmpty⟩
  else if charAt s offset = '[' then
    match findCharFrom ']' s (offset + 1) with
    | none => .error ⟨0, .contextUnclosed⟩
    | some iCtx =>
      let context := sliceStr s (offset + 1) iCtx
      if context.all isSpaceRune then .error ⟨0, .contextEmpty⟩
      else if context.any (fun ch =>
          ch == lbrace || ch == rbrace || ch == '[' || ch == ']' ||
          ch == revSolidus) then
        .error ⟨0, .contextInvalid⟩
      else
        let buffer1 := buffer ++ [⟨offset, iCtx + 1, .context⟩]
        let offset2 := skipSpacesFrom s (iCtx + 1)
        if s.length ≤ offset2 then .error ⟨offset2, .textEmpty⟩
        else tokenizeBody buffer1 s c offset2
  else tokenizeBody buffer s c offset

/-! ## TIK and the placeholder iterator (tik.go `TIK`, `TIK.Placeholders`) -/

/-- A parsed and validated textual internationalization key. -/
structure TIK where
  raw : Str
  tokens : List Token
deriving DecidableEq, Repr

/-- The body of the `TIK.Placeholders` iterator with an always-true `yield`:
pairs every placeholder token with its running index `i`, skipping `Context`,
`StringLiteral` and `CardinalPluralEnd` tokens. -/
def placeholdersAux : List Token → Nat → List (Nat × Token)
  | [], _ => []
  | t :: rest, i =>
    match t.type with
    | .context | .stringLiteral | .cardinalPluralEnd => placeholdersAux rest i
    | _ => (i, t) :: placeholdersAux rest (i + 1)

/-- `TIK.Placeholders` collected into a list. -/
def Placeholders (t : TIK) : List (Nat × Token) :=
  placeholdersAux t.tokens 0

/-- The token types that consume a positional index in the ICU translator
(every type except `Context`, `StringLiteral` and `CardinalPluralEnd`). -/
def isPlaceholderTokenType (t : TokenType) : Bool :=
  match t with
  | .context | .stringLiteral | .cardinalPluralEnd => false
  | _ => true

/-- Number of placeholder-class tokens. -/
def countPlaceholders (toks : List Token) : Nat :=
  toks.countP (fun t => isPlaceholderTokenType t.type)

/-! ## The ICU translator (icu.go: `ICUTranslator`) -/

/-- Per positional-argument modifier flags supplied at translation time. -/
structure ICUModifier where
  gender : Bool
  plural : Bool
deriving DecidableEq, Repr

/-- The decimal digit characters (Go `strconv.Itoa` digit table). -/
def itoaDigit (n : Nat) : Char :=
  match n with
  | 0 => '0' | 1 => '1' | 2 => '2' | 3 => '3' | 4 => '4'
  | 5 => '5' | 6 => '6' | 7 => '7' | 8 => '8' | _ => '9'

/-- Fuelled digit loop of `strconv.Itoa` (most significant digit first). -/
def itoaCore : Nat → Nat → Str → Str
  | 0, _, acc => acc
  | fuel + 1, n, acc =>
    if n < 10 then itoaDigit n :: acc
    else itoaCore fuel (n / 10) (itoaDigit (n % 10) :: acc)

/-- Go `strconv.Itoa` on naturals: decimal representation. -/
def itoa (n : Nat) : Str := itoaCore (n + 1) n []

/-- `ICUTranslator.writePositionalPlaceholder(index, suffix)`:
writes `var<index><suffix>`. -/
def writePositionalPlaceholder (index : Nat) (suffix : Str) : Str :=
  "var".data ++ itoa index ++ suffix

/-- The modifier map: `none` is Go's `nil` map, `some m` a map with lookup
function `m` (`m pos = none` models a missing key). -/
abbrev ModifierMap := Option (Nat → Option ICUModifier)

/-- `ICUTranslator.writeModifiers(pos, modifiers, gender, plural, writeContent)`:
wraps `content` in the gender/plural overlay blocks demanded by the modifier
map, reproducing the buffer writes of the source in order. -/
def writeModifiers (pos : Nat) (modifiers : ModifierMap)
    (gender plural : Bool) (content : Str) : Str :=
  match modifiers with
  | none => content
  | some m =>
    match m pos with
    | none => content
    | some mod =>
      let applyGender := gender && mod.gender
      let applyPlural := plural && mod.plural
      if !applyGender && !applyPlural then content
      else if applyGender then
        "\x7b".data ++ writePositionalPlaceholder pos "_gender".data ++
          ", select, ".data ++ "other \x7b".data ++
          (if applyPlural then
            "\x7b".data ++ writePositionalPlaceholder pos "_plural".data ++
              ", plural, ".data ++ "other \x7b".data ++ content ++ "\x7d\x7d".data
          else content ++ "\x7d\x7d".data)
      else
        "\x7b".data ++ writePositionalPlaceholder pos "_plural".data ++
          ", plural, ".data ++ "other \x7b".data ++ content ++ "\x7d\x7d".data

/-- The token loop of `ICUTranslator.TIK2ICUBuf`, instrumented: returns the
emitted output together with the trace of base positional indices consumed,
one entry per placeholder-class token in token order.  `pIdx` is the running
`positionalIndex` counter. -/
def TIK2ICUAux (conf : Config) (raw : Str) (modifiers : ModifierMap) :
    List Token → Nat → Str × List Nat
  | [], _ => ([], [])
  | t :: rest, pIdx =>
    match t.type with
    | .context =>
      -- No case in the source switch: a context token emits nothing.
      TIK2ICUAux conf raw modifiers rest pIdx
    | .stringLiteral =>
      let r := TIK2ICUAux conf raw modifiers rest pIdx
      (tokenString raw t ++ r.1, r.2)
    | .cardinalPluralEnd =>
      -- Finish both the `other` and the `plural` block.
      let r := TIK2ICUAux conf raw modifiers rest pIdx
      ("\x7d\x7d".data ++ r.1, r.2)
    | .ordinalPlural =>
      let emission :=
        "\x7b".data ++ writePositionalPlaceholder pIdx [] ++
          ", selectordinal, ".data ++ "other \x7b#".data ++
          conf.magicConstants.ordinalPlural.defaultICUSuffix ++ "\x7d\x7d".data
      let r := TIK2ICUAux conf raw modifiers rest (pIdx + 1)
      (emission ++ r.1, pIdx :: r.2)
    | .cardinalPluralStart =>
      let emission :=
        "\x7b".data ++ writePositionalPlaceholder pIdx [] ++
          ", plural, ".data ++ "other \x7b".data ++ "# ".data
      let r := TIK2ICUAux conf raw modifiers rest (pIdx + 1)
      (emission ++ r.1, pIdx :: r.2)
    | .genderPronoun =>
      let pronoun := tokenString raw t
      let content :=
        "\x7b".data ++ writePositionalPlaceholder pIdx [] ++
          ", select, ".data ++ "other \x7b".data ++
          (pronoun.drop 1).dropLast ++ "\x7d\x7d".data
      let emission := writeModifiers pIdx modifiers false true content
      let r := TIK2ICUAux conf raw modifiers rest (pIdx + 1)
      (emission ++ r.1, pIdx :: r.2)
    | _ =>
      -- StringPlaceholder, Number, the nine Time types and the four
      -- Currency types: a plain positional placeholder under the full
      -- gender/plural modifier overlay.
      let content :=
        "\x7b".data ++ writePositionalPlaceholder pIdx [] ++ "\x7d".data
      let emission := writeModifiers pIdx modifiers true true content
      let r := TIK2ICUAux conf raw modifiers rest (pIdx + 1)
      (emission ++ r.1, pIdx :: r.2)

/-- `ICUTranslator.TIK2ICU(tik, modifiers)`: the emitted ICU skeleton. -/
def TIK2ICU (conf : Config) (tik : TIK) (modifiers : ModifierMap) : Str :=
  (TIK2ICUAux conf tik.raw modifiers tik.tokens 0).1

/-- The trace of base positional indices the translator assigns, in token
order. -/
def TIK2ICUTrace (conf : Config) (tik : TIK) (modifiers : ModifierMap) :
    List Nat :=
  (TIK2ICUAux conf tik.raw modifiers tik.tokens 0).2

/-! ## Configuration validation (config.go) -/

/-- config.go `validateMagicPlaceholder`: `some k` the error kind, `none` ok. -/
def validateMagicPlaceholder (s : Str) : Option ErrKind :=
  if s = [] then some .confMagicConstantInvalid
  else if s.any (fun c => c == quoteChar || c == lbrace || c == rbrace) then
    some .confMagicConstantInvalid
  else if isSpaceRune (charAt s 0) then some .confMagicConstantInvalid
  else if isSpaceRune (charAt s (s.length - 1)) then
    some .confMagicConstantInvalid
  else none

/-- The `check` closure of `validateCustomMagicConstants`: shape check, then
the duplicate check against the already-seen set. -/
def checkConstant (seen : List Str) (v : Str) : Option ErrKind :=
  match validateMagicPlaceholder v with
  | some e => some e
  | none => if v ∈ seen then some .confMagicConstantNonUnique else none

/-- Runs `check` over a list of constants, threading the seen set. -/
def checkConstants (seen : List Str) : List Str → Option ErrKind
  | [] => none
  | v :: rest =>
    match checkConstant seen v with
    | some e => some e
    | none => checkConstants (v :: seen) rest

/-- The fixed 16-element constant array of `validateCustomMagicConstants`,
in source order. -/
def mcList (m : MagicConstants) : List Str :=
  [m.number, m.cardinalPluralStart, m.ordinalPlural.constant,
   m.timeShort, m.timeShortSeconds, m.timeFullMonthAndDay,
   m.timeShortMonthAndDay, m.timeFullMonthAndYear, m.timeWeekday,
   m.timeDateAndShort, m.timeYear, m.timeFull,
   m.currencyRounded, m.currencyFull, m.currencyCodeRounded,
   m.currencyCodeFull]

/-- config.go `validateCustomMagicConstants`: the 16 fixed constants, the
ordinal default suffix, the pronoun set emptiness, then the pronouns checked
against the same seen set (after the 16-element pass the seen set holds
exactly the 16 constants; list order of the seen set is irrelevant to
membership). -/
def validateCustomMagicConstants (m : MagicConstants) : Option ErrKind :=
  match checkConstants [] (mcList m) with
  | some e => some e
  | none =>
    if m.ordinalPlural.defaultICUSuffix = [] then some .confMissingDefault
    else if m.genderPronouns = [] then some .confMagicConstantInvalid
    else checkConstants (mcList m).reverse m.genderPronouns

/-- `Config.Validate`. -/
def ConfigValidate (c : Config) : Option ErrKind :=
  validateCustomMagicConstants c.magicConstants

/-! ## Specification-side predicates -/

/-- Go-style whitespace trimming of both ends (`strings.TrimSpace`):
"the input with leading and trailing Unicode whitespace stripped". -/
def trimGo (s : Str) : Str :=
  ((s.dropWhile isSpaceRune).reverse.dropWhile isSpaceRune).reverse

/-- Spec side of the configuration-validity claim: a constant is non-empty,
contains no directive metacharacter and neither starts nor ends with Unicode
whitespace. -/
def SpecValidConstant (v : Str) : Prop :=
  v ≠ [] ∧ (∀ c ∈ v, c ≠ lbrace ∧ c ≠ rbrace ∧ c ≠ quoteChar) ∧
    ¬ isSpaceRune (v.headD (Char.ofNat 0)) ∧
    ¬ isSpaceRune (v.getLastD (Char.ofNat 0))

/-- All configured magic-constant literals (the 16 fixed ones plus the
gender-pronoun set). -/
def allConstants (m : MagicConstants) : List Str :=
  mcList m ++ m.genderPronouns

/-- Spec side of the configuration-validity claim, as the claim words it:
pairwise-distinct constants, every constant well-shaped, a non-empty
gender-pronoun set and a non-empty default ordinal ICU suffix. -/
def GoodConfig (m : MagicConstants) : Prop :=
  (allConstants m).Nodup ∧ (∀ v ∈ allConstants m, SpecValidConstant v) ∧
    m.genderPronouns ≠ [] ∧ m.ordinalPlural.defaultICUSuffix ≠ []

/-- Span well-formedness of a token sequence: every span is well-ordered and
consecutive spans do not overlap. -/
def SpanOrdered (toks : List Token) : Prop :=
  (∀ t ∈ toks, t.indexStart ≤ t.indexEnd) ∧
    List.Chain' (fun a b => a.indexEnd ≤ b.indexStart) toks

/-- Two consecutive backslashes occur somewhere in the string. -/
def hasDoubleRevSolidus : Str → Bool
  | c1 :: c2 :: rest =>
    if c1 = revSolidus ∧ c2 = revSolidus then true
    else hasDoubleRevSolidus (c2 :: rest)
  | _ => false

/-- The ICU `select` skeleton the spec prescribes for a gender-pronoun token:
`\x7bvarN, select, other \x7bP\x7d\x7d` where `P` is the raw input text
strictly between the token's braces. -/
def genderSelectEmission (raw : Str) (t : Token) (pos : Nat) : Str :=
  "\x7b".data ++ writePositionalPlaceholder pos [] ++ ", select, ".data ++
    "other \x7b".data ++ sliceStr raw (t.indexStart + 1) (t.indexEnd - 1) ++
    "\x7d\x7d".data

/-- The `\x7bvarN_plural, plural, other \x7b…\x7d\x7d` wrapper a supplied
`Plural` modifier adds around an emission. -/
def pluralWrapEmission (pos : Nat) (inner : Str) : Str :=
  "\x7b".data ++ writePositionalPlaceholder pos "_plural".data ++
    ", plural, ".data ++ "other \x7b".data ++ inner ++ "\x7d\x7d".data

/-- Reference decimal representation (most significant digit first), used to
reason about the fuelled `itoaCore`. -/
def repDecimal (n : Nat) : Str :=
  if n < 10 then [itoaDigit n]
  else repDecimal (n / 10) ++ [itoaDigit (n % 10)]
termination_by n
decreasing_by exact Nat.div_lt_self (by omega) (by omega)

/-! # Theorems -/

/-! ## Positional-index bookkeeping of the translator -/

theorem countPlaceholders_cons (t : Token) (rest : List Token) :
    countPlaceholders (t :: rest) =
      countPlaceholders rest + (if isPlaceholderTokenType t.type then 1 else 0) := by
  simp [countPlaceholders, List.countP_cons]

theorem TIK2ICUAux_trace (conf : Config) (raw : Str) (mods : ModifierMap) :
    ∀ (toks : List Token) (k : Nat),
      (TIK2ICUAux conf raw mods toks k).2 =
        List.range' k (countPlaceholders toks) := by
  intro toks
  induction toks with
  | nil => intro k; simp [TIK2ICUAux, countPlaceholders]
  | cons t rest ih =>
    intro k
    rw [countPlaceholders_cons]
    cases h : t.type <;>
      simp [TIK2ICUAux, h, isPlaceholderTokenType, ih, List.range'_succ]

theorem placeholdersAux_map_fst :
    ∀ (toks : List Token) (k : Nat),
      (placeholdersAux toks k).map Prod.fst =
        List.range' k (countPlaceholders toks) := by
  intro toks
  induction toks with
  | nil => intro k; simp [placeholdersAux, countPlaceholders]
  | cons t rest ih =>
    intro k
    rw [countPlaceholders_cons]
    cases h : t.type <;>
      simp [placeholdersAux, h, isPlaceholderTokenType, ih, List.range'_succ]

/-- C1: For every valid TIK, the sequence of positional indices the ICU
translator assigns to tokens is `0, 1, 2, …` strictly increasing in token
order, incremented once per placeholder-class token, where `Context`,
`Literal` and `CardinalPluralEnd` tokens never consume a positional index:
the translator's index trace is exactly `List.range` of the number of
placeholder-class tokens (one entry per such token, in token order), and the
`TIK.Placeholders` iterator numbers the same tokens the same way. -/
theorem icu_positional_monotonicity (conf : Config) (tik : TIK)
    (mods : ModifierMap) :
    TIK2ICUTrace conf tik mods = List.range (countPlaceholders tik.tokens) ∧
      (Placeholders tik).map Prod.fst =
        List.range (countPlaceholders tik.tokens) := by
  constructor
  · rw [TIK2ICUTrace, TIK2ICUAux_trace, List.range_eq_range']
  · rw [Placeholders, placeholdersAux_map_fst, List.range_eq_range']

/-! ## Modifier idempotence -/

theorem writeModifiers_trivial (pos : Nat) (m : Nat → Option ICUModifier)
    (gender plural : Bool) (content : Str)
    (h : m pos = none ∨ m pos = some ⟨false, false⟩) :
    writeModifiers pos (some m) gender plural content = content := by
  rcases h with h | h <;> simp [writeModifiers, h]

theorem TIK2ICUAux_trivial_mods (conf : Config) (raw : Str)
    (m : Nat → Option ICUModifier)
    (hm : ∀ pos, m pos = none ∨ m pos = some ⟨false, false⟩) :
    ∀ (toks : List Token) (k : Nat),
      TIK2ICUAux conf raw (some m) toks k = TIK2ICUAux conf raw none toks k := by
  intro toks
  induction toks with
  | nil => intro k; rfl
  | cons t rest ih =>
    intro k
    rcases hm k with hk | hk <;> cases h : t.type <;>
      simp [TIK2ICUAux, h, ih, writeModifiers, hk]

/-- C7: For every valid TIK, translating it with a nil or empty modifier map
produces byte-identical output to translating it with a modifier map that
contains a `{Gender:false, Plural:false}` entry for every positional index. -/
theorem icu_modifier_idempotence (conf : Config) (tik : TIK) :
    TIK2ICU conf tik (some (fun _ => none)) = TIK2ICU conf tik none ∧
      TIK2ICU conf tik
        (some (fun k =>
          if k < countPlaceholders tik.tokens then some ⟨false, false⟩
          else none)) = TIK2ICU conf tik none := by
  constructor
  · rw [TIK2ICU, TIK2ICU, TIK2ICUAux_trivial_mods]
    intro pos; exact Or.inl rfl
  · rw [TIK2ICU, TIK2ICU, TIK2ICUAux_trivial_mods]
    intro pos
    by_cases h : pos < countPlaceholders tik.tokens
    · exact Or.inr (by simp [h])
    · exact Or.inl (by simp [h])

/-! ## Injectivity of the positional-argument naming -/

theorem repDecimal_lt {n : Nat} (h : n < 10) : repDecimal n = [itoaDigit n] := by
  rw [repDecimal, if_pos h]

theorem repDecimal_ge {n : Nat} (h : ¬ n < 10) :
    repDecimal n = repDecimal (n / 10) ++ [itoaDigit (n % 10)] := by
  conv_lhs => rw [repDecimal]
  rw [if_neg h]

theorem itoaCore_eq_repDecimal :
    ∀ (fuel n : Nat) (acc : Str), n < 10 ^ (fuel + 1) →
      itoaCore (fuel + 1) n acc = repDecimal n ++ acc := by
  intro fuel
  induction fuel with
  | zero =>
    intro n acc h
    have hn : n < 10 := by simpa using h
    rw [itoaCore, if_pos hn, repDecimal_lt hn]
    rfl
  | succ fuel ih =>
    intro n acc h
    by_cases hn : n < 10
    · rw [itoaCore, if_pos hn, repDecimal_lt hn]; rfl
    · rw [itoaCore, if_neg hn, repDecimal_ge hn, List.append_assoc]
      refine ih (n / 10) _ ?_
      have h2 : n < 10 ^ (fuel + 1) * 10 := by
        calc n < 10 ^ (fuel + 1 + 1) := h
        _ = 10 ^ (fuel + 1) * 10 := by ring
      omega

theorem itoa_eq_repDecimal (n : Nat) : itoa n = repDecimal n := by
  rw [itoa, itoaCore_eq_repDecimal n n [] (by
    calc n < 10 ^ n := Nat.lt_pow_self (by omega) n
    _ ≤ 10 ^ (n + 1) := Nat.pow_le_pow_right (by omega) (by omega)),
    List.append_nil]

theorem itoaDigit_inj : ∀ a < 10, ∀ b < 10, itoaDigit a = itoaDigit b → a = b := by
  decide

theorem repDecimal_ne_nil (n : Nat) : repDecimal n ≠ [] := by
  by_cases h : n < 10
  · rw [repDecimal_lt h]; simp
  · rw [repDecimal_ge h]; simp

theorem repDecimal_inj : ∀ a b : Nat, repDecimal a = repDecimal b → a = b := by
  intro a
  induction a using Nat.strong_induction_on with
  | _ a ih =>
    intro b hab
    by_cases ha : a < 10 <;> by_cases hb : b < 10
    · rw [repDecimal_lt ha, repDecimal_lt hb] at hab
      simp at hab
      exact itoaDigit_inj a ha b hb hab
    · rw [repDecimal_lt ha, repDecimal_ge hb] at hab
      have hlen := congrArg List.length hab
      have h2 := repDecimal_ne_nil (b / 10)
      cases h3 : repDecimal (b / 10) with
      | nil => exact absurd h3 h2
      | cons x xs => rw [h3] at hlen; simp at hlen
    · rw [repDecimal_ge ha, repDecimal_lt hb] at hab
      have hlen := congrArg List.length hab
      have h2 := repDecimal_ne_nil (a / 10)
      cases h3 : repDecimal (a / 10) with
      | nil => exact absurd h3 h2
      | cons x xs => rw [h3] at hlen; simp at hlen
    · rw [repDecimal_ge ha, repDecimal_ge hb] at hab
      have hlen : ([itoaDigit (a % 10)] : Str).length = [itoaDigit (b % 10)].length := rfl
      obtain ⟨h1, h2⟩ := List.append_inj' hab hlen
      have hdiv : a / 10 = b / 10 :=
        ih (a / 10) (Nat.div_lt_self (by omega) (by omega)) _ h1
      have h2' : itoaDigit (a % 10) = itoaDigit (b % 10) := by
        simpa using h2
      have hmod : a % 10 = b % 10 :=
        itoaDigit_inj _ (Nat.mod_lt _ (by omega)) _ (Nat.mod_lt _ (by omega)) h2'
      omega

theorem itoa_inj {a b : Nat} (h : itoa a = itoa b) : a = b := by
  rw [itoa_eq_repDecimal, itoa_eq_repDecimal] at h
  exact repDecimal_inj a b h

theorem writePositionalPlaceholder_inj {a b : Nat} (suffix : Str)
    (h : writePositionalPlaceholder a suffix = writePositionalPlaceholder b suffix) :
    a = b := by
  rw [writePositionalPlaceholder, writePositionalPlaceholder] at h
  have h1 := List.append_cancel_right h
  exact itoa_inj (List.append_cancel_left h1)

/-! ## Output decomposition of the translator over token-list concatenation -/

theorem TIK2ICUAux_append (conf : Config) (raw : Str) (mods : ModifierMap) :
    ∀ (xs ys : List Token) (k : Nat),
      TIK2ICUAux conf raw mods (xs ++ ys) k =
        ((TIK2ICUAux conf raw mods xs k).1 ++
          (TIK2ICUAux conf raw mods ys (k + countPlaceholders xs)).1,
         (TIK2ICUAux conf raw mods xs k).2 ++
          (TIK2ICUAux conf raw mods ys (k + countPlaceholders xs)).2) := by
  intro xs
  induction xs with
  | nil => intro ys k; simp [TIK2ICUAux, countPlaceholders]
  | cons t rest ih =>
    intro ys k
    rw [countPlaceholders_cons]
    cases h : t.type <;>
      simp [TIK2ICUAux, h, isPlaceholderTokenType, ih, Nat.add_assoc,
        Nat.add_comm, Nat.add_left_comm]

/-! ## Positional argument naming (claims C2, C6, C10 support) -/

/-- C2 counterexample: the TIK `\x7b"x"\x7d` is valid and holds a lone
placeholder, but the translator emits `\x7bvar0\x7d`, not `\x7barg0\x7d` as
the claim states. -/
theorem icu_arg_naming_counterexample :
    Tokenize [] "\x7b\x22x\x22\x7d".data defaultConfig =
      .ok [⟨0, 5, .stringPlaceholder⟩] ∧
    TIK2ICU defaultConfig ⟨"\x7b\x22x\x22\x7d".data,
      [⟨0, 5, .stringPlaceholder⟩]⟩ none = "\x7bvar0\x7d".data ∧
    "\x7bvar0\x7d".data ≠ "\x7barg0\x7d".data := by
  refine ⟨by rfl, by rfl, by decide⟩

/-- C2 amended: for every valid TIK, the translator names its positional
arguments `var0, var1, var2, …` in token order (a lone placeholder emits
`\x7bvar0\x7d`), with no semantic naming or deduplication: the emitted base
names are pairwise distinct, and two placeholders with identical literal text
(`"x"` twice) still get the distinct names `var0` and `var1`. -/
theorem icu_positional_naming :
    (∀ (conf : Config) (tik : TIK) (mods : ModifierMap),
      ((TIK2ICUTrace conf tik mods).map
        (fun k => writePositionalPlaceholder k [])).Nodup) ∧
    Tokenize [] "\x7b\x22x\x22\x7d".data defaultConfig =
      .ok [⟨0, 5, .stringPlaceholder⟩] ∧
    TIK2ICU defaultConfig ⟨"\x7b\x22x\x22\x7d".data,
      [⟨0, 5, .stringPlaceholder⟩]⟩ none = "\x7bvar0\x7d".data ∧
    Tokenize [] "\x7b\x22x\x22\x7d and \x7b\x22x\x22\x7d".data defaultConfig =
      .ok [⟨0, 5, .stringPlaceholder⟩, ⟨5, 10, .stringLiteral⟩,
        ⟨10, 15, .stringPlaceholder⟩] ∧
    TIK2ICU defaultConfig ⟨"\x7b\x22x\x22\x7d and \x7b\x22x\x22\x7d".data,
      [⟨0, 5, .stringPlaceholder⟩, ⟨5, 10, .stringLiteral⟩,
        ⟨10, 15, .stringPlaceholder⟩]⟩ none =
      "\x7bvar0\x7d and \x7bvar1\x7d".data := by
  refine ⟨?_, by rfl, by rfl, by rfl, by rfl⟩
  intro conf tik mods
  rw [TIK2ICUTrace, TIK2ICUAux_trace]
  refine List.Nodup.map (fun a b hab => writePositionalPlaceholder_inj [] hab) ?_
  exact (List.pairwise_lt_range' _ _).imp Nat.ne_of_lt

/-- C6 counterexample: the literal `don't` holds an apostrophe; the
translator copies it verbatim (`don't`), it does not escape it as `don''t`
as the claim states. -/
theorem icu_literal_quote_counterexample :
    Tokenize [] "don\x27t".data defaultConfig = .ok [⟨0, 5, .stringLiteral⟩] ∧
    TIK2ICU defaultConfig ⟨"don\x27t".data, [⟨0, 5, .stringLiteral⟩]⟩ none =
      "don\x27t".data ∧
    "don\x27t".data ≠ "don\x27\x27t".data := by
  refine ⟨by rfl, by rfl, by decide⟩

/-- C6 amended: for every valid TIK, the ICU translator copies each Literal
token's recovered text verbatim into the output, with no escaping of
apostrophe characters (the emission of a Literal token is exactly
`tokenString`, the unescaped span). -/
theorem icu_literal_verbatim (conf : Config) (raw : Str) (mods : ModifierMap)
    (pre post : List Token) (t : Token) (h : t.type = .stringLiteral) :
    TIK2ICU conf ⟨raw, pre ++ t :: post⟩ mods =
      (TIK2ICUAux conf raw mods pre 0).1 ++ tokenString raw t ++
        (TIK2ICUAux conf raw mods post (countPlaceholders pre)).1 := by
  rw [TIK2ICU, TIK2ICUAux_append]
  simp [TIK2ICUAux, h]

/-- Witness for the amended C6 at a concrete valid TIK (`don't`). -/
theorem icu_literal_verbatim_witness :
    TIK2ICU defaultConfig ⟨"don\x27t".data, [] ++ ⟨0, 5, .stringLiteral⟩ :: []⟩
        none =
      (TIK2ICUAux defaultConfig "don\x27t".data none [] 0).1 ++
        tokenString "don\x27t".data ⟨0, 5, .stringLiteral⟩ ++
        (TIK2ICUAux defaultConfig "don\x27t".data none []
          (countPlaceholders [])).1 :=
  icu_literal_verbatim defaultConfig "don\x27t".data none [] []
    ⟨0, 5, .stringLiteral⟩ rfl

/-! ## Gender-pronoun emission (claim C10) -/

theorem sliceStr_drop_one (raw : Str) (a b : Nat) :
    (sliceStr raw a b).drop 1 = sliceStr raw (a + 1) b := by
  simp only [sliceStr, List.drop_take, List.drop_drop]
  congr 1

theorem sliceStr_dropLast (raw : Str) (a b : Nat) (hle : b ≤ raw.length) :
    (sliceStr raw a b).dropLast = sliceStr raw a (b - 1) := by
  rw [List.dropLast_eq_take, sliceStr, sliceStr, List.take_take]
  congr 1
  simp only [List.length_take, List.length_drop]
  omega

theorem tokenString_strip (raw : Str) (t : Token)
    (hbs : (sliceStr raw t.indexStart t.indexEnd).contains revSolidus = false)
    (hle : t.indexEnd ≤ raw.length) :
    ((tokenString raw t).drop 1).dropLast =
      sliceStr raw (t.indexStart + 1) (t.indexEnd - 1) := by
  have h1 : tokenString raw t = sliceStr raw t.indexStart t.indexEnd := by
    simp only [tokenString]
    rw [hbs]
    rfl
  rw [h1, sliceStr_drop_one, sliceStr_dropLast raw _ _ hle]

/-- C10: For every valid TIK containing a gender-pronoun token, the
translator consumes one positional index `N` for it and emits
`\x7bvarN, select, other \x7bP\x7d\x7d` where `P` is the raw input text
strictly between the token's braces, casing preserved exactly as written;
a supplied modifier with `Plural` set additionally wraps this emission in a
`\x7bvarN_plural, plural, other \x7b…\x7d\x7d` block, while the `Gender`
flag of a modifier has no effect on a gender-pronoun token. -/
theorem icu_gender_pronoun_emission (conf : Config) (raw : Str)
    (pre post : List Token) (t : Token)
    (htype : t.type = .genderPronoun)
    (hbs : (sliceStr raw t.indexStart t.indexEnd).contains revSolidus = false)
    (hle : t.indexEnd ≤ raw.length) :
    (TIK2ICU conf ⟨raw, pre ++ t :: post⟩ none =
      (TIK2ICUAux conf raw none pre 0).1 ++
        genderSelectEmission raw t (countPlaceholders pre) ++
        (TIK2ICUAux conf raw none post (countPlaceholders pre + 1)).1) ∧
    (∀ (m : Nat → Option ICUModifier) (g : Bool),
      m (countPlaceholders pre) = some ⟨g, true⟩ →
      TIK2ICU conf ⟨raw, pre ++ t :: post⟩ (some m) =
        (TIK2ICUAux conf raw (some m) pre 0).1 ++
          pluralWrapEmission (countPlaceholders pre)
            (genderSelectEmission raw t (countPlaceholders pre)) ++
          (TIK2ICUAux conf raw (some m) post (countPlaceholders pre + 1)).1) ∧
    (∀ (m : Nat → Option ICUModifier) (g : Bool),
      m (countPlaceholders pre) = some ⟨g, false⟩ →
      TIK2ICU conf ⟨raw, pre ++ t :: post⟩ (some m) =
        (TIK2ICUAux conf raw (some m) pre 0).1 ++
          genderSelectEmission raw t (countPlaceholders pre) ++
          (TIK2ICUAux conf raw (some m) post (countPlaceholders pre + 1)).1) := by
  have hstrip := tokenString_strip raw t hbs hle
  simp only [List.drop_one] at hstrip
  refine ⟨?_, ?_, ?_⟩
  · rw [TIK2ICU, TIK2ICUAux_append]
    simp [TIK2ICUAux, htype, writeModifiers, genderSelectEmission, hstrip]
  · intro m g hm
    rw [TIK2ICU, TIK2ICUAux_append]
    simp [TIK2ICUAux, htype, writeModifiers, hm, genderSelectEmission,
      pluralWrapEmission, hstrip]
  · intro m g hm
    rw [TIK2ICU, TIK2ICUAux_append]
    simp [TIK2ICUAux, htype, writeModifiers, hm, genderSelectEmission, hstrip]

/-- Witness for C10 at the concrete valid TIK `hi \x7bThey\x7d`, with a
plural-setting modifier and a gender-only modifier. -/
theorem icu_gender_pronoun_emission_witness :
    (TIK2ICU defaultConfig ⟨"hi \x7bThey\x7d".data,
        [⟨0, 3, .stringLiteral⟩] ++ ⟨3, 9, .genderPronoun⟩ :: []⟩ none =
      (TIK2ICUAux defaultConfig "hi \x7bThey\x7d".data none
          [⟨0, 3, .stringLiteral⟩] 0).1 ++
        genderSelectEmission "hi \x7bThey\x7d".data ⟨3, 9, .genderPronoun⟩
          (countPlaceholders [⟨0, 3, .stringLiteral⟩]) ++
        (TIK2ICUAux defaultConfig "hi \x7bThey\x7d".data none []
          (countPlaceholders [⟨0, 3, .stringLiteral⟩] + 1)).1) ∧
    (TIK2ICU defaultConfig ⟨"hi \x7bThey\x7d".data,
        [⟨0, 3, .stringLiteral⟩] ++ ⟨3, 9, .genderPronoun⟩ :: []⟩
        (some (fun k => if k = 0 then some ⟨true, true⟩ else none)) =
      (TIK2ICUAux defaultConfig "hi \x7bThey\x7d".data
          (some (fun k => if k = 0 then some ⟨true, true⟩ else none))
          [⟨0, 3, .stringLiteral⟩] 0).1 ++
        pluralWrapEmission (countPlaceholders [⟨0, 3, .stringLiteral⟩])
          (genderSelectEmission "hi \x7bThey\x7d".data ⟨3, 9, .genderPronoun⟩
            (countPlaceholders [⟨0, 3, .stringLiteral⟩])) ++
        (TIK2ICUAux defaultConfig "hi \x7bThey\x7d".data
          (some (fun k => if k = 0 then some ⟨true, true⟩ else none)) []
          (countPlaceholders [⟨0, 3, .stringLiteral⟩] + 1)).1) ∧
    (TIK2ICU defaultConfig ⟨"hi \x7bThey\x7d".data,
        [⟨0, 3, .stringLiteral⟩] ++ ⟨3, 9, .genderPronoun⟩ :: []⟩
        (some (fun k => if k = 0 then some ⟨true, false⟩ else none)) =
      (TIK2ICUAux defaultConfig "hi \x7bThey\x7d".data
          (some (fun k => if k = 0 then some ⟨true, false⟩ else none))
          [⟨0, 3, .stringLiteral⟩] 0).1 ++
        genderSelectEmission "hi \x7bThey\x7d".data ⟨3, 9, .genderPronoun⟩
          (countPlaceholders [⟨0, 3, .stringLiteral⟩]) ++
        (TIK2ICUAux defaultConfig "hi \x7bThey\x7d".data
          (some (fun k => if k = 0 then some ⟨true, false⟩ else none)) []
          (countPlaceholders [⟨0, 3, .stringLiteral⟩] + 1)).1) := by
  obtain ⟨h1, h2, h3⟩ :=
    icu_gender_pronoun_emission defaultConfig "hi \x7bThey\x7d".data
      [⟨0, 3, .stringLiteral⟩] [] ⟨3, 9, .genderPronoun⟩ rfl (by decide)
      (by decide)
  exact ⟨h1, h2 _ true (by decide), h3 _ true (by decide)⟩

/-! ## Configuration validation (claim C8) -/

theorem getD_last_eq_getLastD (v : Str) (d : Char) (h : v ≠ []) :
    v.getD (v.length - 1) d = v.getLastD d := by
  induction v with
  | nil => exact absurd rfl h
  | cons a r ih =>
    cases r with
    | nil => rfl
    | cons b t =>
      have h2 : (b :: t : Str) ≠ [] := by simp
      have := ih h2
      simpa [List.getLastD] using this

theorem validateMagicPlaceholder_eq_none_iff (v : Str) :
    validateMagicPlaceholder v = none ↔ SpecValidConstant v := by
  rw [validateMagicPlaceholder, SpecValidConstant]
  by_cases h0 : v = []
  · simp [h0]
  · rw [if_neg h0]
    have hhead : charAt v 0 = v.headD (Char.ofNat 0) := by
      cases v with
      | nil => rfl
      | cons a r => rfl
    have hlast : charAt v (v.length - 1) = v.getLastD (Char.ofNat 0) := by
      rw [charAt, getD_last_eq_getLastD v _ h0]
    by_cases h1 : v.any (fun c => c == quoteChar || c == lbrace || c == rbrace)
    · rw [if_pos h1]
      refine iff_of_false (by simp) ?_
      simp only [List.any_eq_true, Bool.or_eq_true, beq_iff_eq] at h1
      obtain ⟨c, hc, hor⟩ := h1
      rintro ⟨-, hall, -, -⟩
      obtain ⟨hnl, hnr, hnq⟩ := hall c hc
      rcases hor with (h | h) | h
      · exact hnq h
      · exact hnl h
      · exact hnr h
    · rw [if_neg h1]
      simp only [List.any_eq_true, Bool.or_eq_true, beq_iff_eq] at h1
      push_neg at h1
      constructor
      · intro hcon
        by_cases h2 : isSpaceRune (charAt v 0)
        · rw [if_pos h2] at hcon; exact absurd hcon (by simp)
        · rw [if_neg h2] at hcon
          by_cases h3 : isSpaceRune (charAt v (v.length - 1))
          · rw [if_pos h3] at hcon; exact absurd hcon (by simp)
          · refine ⟨h0, ?_, by rwa [hhead] at h2, by rwa [hlast] at h3⟩
            intro c hc
            obtain ⟨⟨hq, hl⟩, hr⟩ := h1 c hc
            exact ⟨hl, hr, hq⟩
      · rintro ⟨-, -, h2, h3⟩
        rw [if_neg (by rwa [hhead]), if_neg (by rwa [hlast])]

theorem checkConstants_eq_none_iff :
    ∀ (l seen : List Str),
      checkConstants seen l = none ↔
        (∀ v ∈ l, validateMagicPlaceholder v = none) ∧ l.Nodup ∧
          ∀ v ∈ l, v ∉ seen := by
  intro l
  induction l with
  | nil => intro seen; simp [checkConstants]
  | cons v rest ih =>
    intro seen
    cases hv : validateMagicPlaceholder v with
    | some e => simp [checkConstants, checkConstant, hv]
    | none =>
      by_cases hmem : v ∈ seen
      · simp [checkConstants, checkConstant, hv, hmem]
      · have hred : checkConstants seen (v :: rest) =
            checkConstants (v :: seen) rest := by
          simp [checkConstants, checkConstant, hv, hmem]
        rw [hred, ih]
        simp only [List.nodup_cons, List.mem_cons]
        constructor
        · rintro ⟨hval, hnd, hnin⟩
          refine ⟨?_, ⟨?_, hnd⟩, ?_⟩
          · rintro x (rfl | hx)
            · exact hv
            · exact hval x hx
          · intro hvr
            exact hnin v hvr (by simp)
          · rintro x (rfl | hx)
            · exact hmem
            · exact fun hs => hnin x hx (by simp [hs])
        · rintro ⟨hval, ⟨hvnr, hnd⟩, hnin⟩
          refine ⟨fun x hx => hval x (Or.inr hx), hnd, ?_⟩
          intro x hx hxmem
          rcases hxmem with rfl | hs
          · exact hvnr hx
          · exact hnin x (Or.inr hx) hs

/-- C8: Configuration validation returns an error if and only if the
configuration violates one of: duplicate magic-constant literals; a constant
that is empty, contains `\x7b`, `\x7d` or `"`, or starts or ends with Unicode
whitespace; an empty gender-pronoun set; or an empty default ordinal ICU
suffix.  Otherwise it returns nil — equivalently, it returns nil exactly on
`GoodConfig` configurations. -/
theorem config_validation_iff (c : Config) :
    ConfigValidate c = none ↔ GoodConfig c.magicConstants := by
  rw [ConfigValidate, validateCustomMagicConstants, GoodConfig, allConstants]
  cases h16 : checkConstants [] (mcList c.magicConstants) with
  | some e =>
    refine iff_of_false (by simp) ?_
    rintro ⟨hnd, hval, -, -⟩
    have hnone : checkConstants [] (mcList c.magicConstants) = none := by
      rw [checkConstants_eq_none_iff]
      refine ⟨?_, (List.nodup_append.mp hnd).1, by simp⟩
      intro v hv
      exact (validateMagicPlaceholder_eq_none_iff v).mpr
        (hval v (List.mem_append_left _ hv))
    rw [hnone] at h16
    exact Option.noConfusion h16
  | none =>
    rw [checkConstants_eq_none_iff] at h16
    obtain ⟨hval16, hnd16, -⟩ := h16
    by_cases hsuf : c.magicConstants.ordinalPlural.defaultICUSuffix = []
    · rw [if_pos hsuf]
      refine iff_of_false (by simp) ?_
      rintro ⟨-, -, -, hs⟩
      exact hs hsuf
    · rw [if_neg hsuf]
      by_cases hgp : c.magicConstants.genderPronouns = []
      · rw [if_pos hgp]
        refine iff_of_false (by simp) ?_
        rintro ⟨-, -, hg, -⟩
        exact hg hgp
      · rw [if_neg hgp, checkConstants_eq_none_iff]
        constructor
        · rintro ⟨hvalp, hndp, hninp⟩
          refine ⟨?_, ?_, hgp, hsuf⟩
          · rw [List.nodup_append]
            refine ⟨hnd16, hndp, ?_⟩
            intro a ha hap
            exact hninp a hap (by simpa using ha)
          · intro v hv
            rw [List.mem_append] at hv
            rcases hv with hv | hv
            · exact (validateMagicPlaceholder_eq_none_iff v).mp (hval16 v hv)
            · exact (validateMagicPlaceholder_eq_none_iff v).mp (hvalp v hv)
        · rintro ⟨hnd, hval, -, -⟩
          rw [List.nodup_append] at hnd
          refine ⟨?_, hnd.2.1, ?_⟩
          · intro v hv
            exact (validateMagicPlaceholder_eq_none_iff v).mpr
              (hval v (List.mem_append_right _ hv))
          · intro v hv hvmem
            exact hnd.2.2 (by simpa using hvmem) hv

/-! ## Unexpected closure and nested pluralization (claims C4, C5) -/

theorem lbrace_ne_rbrace : lbrace ≠ rbrace := by decide

/-- C4: For every input and scan position, an unescaped closing brace (one
preceded by an even number, possibly zero, of consecutive backslashes)
encountered by the tokenizer's scan loop while no plural block is open makes
the whole tokenize call fail with `UnexpectedClosure` at that offset; if the
closing brace is preceded by an odd number of consecutive backslashes it is
treated as literal content and tokenization continues scanning after it.
Concretely, `a\x7db` fails at offset 1 and `a\x5c\x7db` tokenizes to a single
literal. -/
theorem tokenizer_unexpected_closure (c : Config) (s : Str)
    (fuel offset literalOffset : Nat) (buffer : List Token) (i : Nat)
    (hfind : findBraceFrom s offset = some i)
    (hch : charAt s i = rbrace) :
    ((escapedAt s i = false →
      tokenizeScan c s (fuel + 1) offset literalOffset false buffer =
        .error ⟨i, .unexpClosure⟩) ∧
     (escapedAt s i = true →
      tokenizeScan c s (fuel + 1) offset literalOffset false buffer =
        tokenizeScan c s fuel (i + 1) literalOffset false buffer)) ∧
    Tokenize [] "a\x7db".data defaultConfig = .error ⟨1, .unexpClosure⟩ ∧
    Tokenize [] "a\x5c\x7db".data defaultConfig =
      .ok [⟨0, 4, .stringLiteral⟩] := by
  refine ⟨⟨?_, ?_⟩, by rfl, by rfl⟩ <;>
    intro h <;> simp [tokenizeScan, hfind, hch, h]

/-- Witness for the two general parts of C4 at concrete scan states. -/
theorem tokenizer_unexpected_closure_witness :
    (tokenizeScan defaultConfig "a\x7db".data (3 + 1) 0 0 false [] =
      .error ⟨1, .unexpClosure⟩) ∧
    (tokenizeScan defaultConfig "a\x5c\x7db".data (4 + 1) 0 0 false [] =
      tokenizeScan defaultConfig "a\x5c\x7db".data 4 3 0 false []) :=
  ⟨((tokenizer_unexpected_closure defaultConfig "a\x7db".data 3 0 0 [] 1
      (by decide) (by decide)).1).1 (by decide),
   ((tokenizer_unexpected_closure defaultConfig "a\x5c\x7db".data 4 0 0 [] 2
      (by decide) (by decide)).1).2 (by decide)⟩

/-- C5: whenever the tokenizer's scan loop, inside an open plural block,
meets an unescaped `\x7b` whose directive body matches the plural-block
opener, the whole tokenize call fails with `NestedPluralization` at the
offset of that second opener's `\x7b`.  Concretely,
`\x7b2 a \x7b2 b\x7d\x7d` fails at offset 5, the offset of the second
opener. -/
theorem tokenizer_nested_pluralization (c : Config) (s : Str)
    (fuel offset literalOffset : Nat) (buffer : List Token)
    (i iClose : Nat) (value : Str)
    (hfind : findBraceFrom s offset = some i)
    (hch : charAt s i = lbrace)
    (hesc : escapedAt s i = false)
    (hclose : findCharFrom rbrace s (i + 1) = some iClose)
    (hmatch : matchDirective (sliceStr s (i + 1) iClose) c =
      some (.cardinalPluralStart, value)) :
    tokenizeScan c s (fuel + 1) offset literalOffset true buffer =
        .error ⟨i, .nestedPluralization⟩ ∧
      Tokenize [] "\x7b2 a \x7b2 b\x7d\x7d".data defaultConfig =
        .error ⟨5, .nestedPluralization⟩ := by
  refine ⟨?_, by rfl⟩
  simp [tokenizeScan, hfind, hch, hesc, hclose, hmatch,
    (by decide : (lbrace = rbrace) = False)]

/-- Witness for the general part of C5 at the concrete scan state reached
inside `\x7b2 a \x7b2 b\x7d\x7d`. -/
theorem tokenizer_nested_pluralization_witness :
    tokenizeScan defaultConfig "\x7b2 a \x7b2 b\x7d\x7d".data (7 + 1) 3 3 true
      [⟨0, 3, .cardinalPluralStart⟩] = .error ⟨5, .nestedPluralization⟩ :=
  (tokenizer_nested_pluralization defaultConfig
    "\x7b2 a \x7b2 b\x7d\x7d".data 7 3 3 [⟨0, 3, .cardinalPluralStart⟩] 5 9
    "2".data (by decide) (by decide) (by decide) (by decide) (by rfl)).1

/-! ## Literal round-trip (claim C3) -/

theorem getD_eq_headD_drop : ∀ (l : Str) (n : Nat) (d : Char),
    l.getD n d = (l.drop n).headD d
  | [], n, d => by simp
  | _ :: _, 0, _ => rfl
  | _ :: rest, n + 1, d => getD_eq_headD_drop rest n d

theorem drop_takeWhile_length (p : Char → Bool) (l : Str) :
    l.drop (l.takeWhile p).length = l.dropWhile p := by
  have h := List.takeWhile_append_dropWhile (p := p) (l := l)
  calc l.drop (l.takeWhile p).length
      = (l.takeWhile p ++ l.dropWhile p).drop (l.takeWhile p).length := by
        rw [h]
    _ = l.dropWhile p := List.drop_left _ _

theorem length_takeWhile_add_dropWhile (p : Char → Bool) (l : Str) :
    (l.takeWhile p).length + (l.dropWhile p).length = l.length := by
  have h := congrArg List.length
    (List.takeWhile_append_dropWhile (p := p) (l := l))
  rw [List.length_append] at h
  exact h

theorem take_reverse_takeWhile (p : Char → Bool) (l : Str) :
    l.take (l.length - (l.reverse.takeWhile p).length) =
      (l.reverse.dropWhile p).reverse := by
  have hdecomp : l =
      (l.reverse.dropWhile p).reverse ++ (l.reverse.takeWhile p).reverse := by
    rw [← List.reverse_append, List.takeWhile_append_dropWhile,
      List.reverse_reverse]
  have hlen : ((l.reverse.dropWhile p).reverse : Str).length =
      l.length - (l.reverse.takeWhile p).length := by
    have h2 := length_takeWhile_add_dropWhile p l.reverse
    simp only [List.length_reverse] at h2 ⊢
    omega
  have h1 := congrArg
    (List.take (l.length - (l.reverse.takeWhile p).length)) hdecomp
  exact h1.trans (List.take_left' hlen)

theorem hasDoubleRevSolidus_iff (l : Str) :
    hasDoubleRevSolidus l = true ↔
      ∃ u v : Str, l = u ++ revSolidus :: revSolidus :: v := by
  induction l with
  | nil =>
    simp only [hasDoubleRevSolidus]
    constructor
    · intro h; exact absurd h (by simp)
    · rintro ⟨u, v, h⟩; exact absurd h (by simp)
  | cons c1 rest ih =>
    cases rest with
    | nil =>
      simp only [hasDoubleRevSolidus]
      constructor
      · intro h; exact absurd h (by simp)
      · rintro ⟨u, v, h⟩
        rcases u with _ | ⟨a, u⟩ <;> simp at h
    | cons c2 rest2 =>
      by_cases hp : c1 = revSolidus ∧ c2 = revSolidus
      · rw [hasDoubleRevSolidus, if_pos hp]
        refine iff_of_true rfl ⟨[], rest2, by simp [hp.1, hp.2]⟩
      · rw [hasDoubleRevSolidus, if_neg hp, ih]
        constructor
        · rintro ⟨u, v, h⟩
          exact ⟨c1 :: u, v, by simp [h]⟩
        · rintro ⟨u, v, h⟩
          rcases u with _ | ⟨a, u⟩
          · simp at h
            exact absurd ⟨h.1, h.2.1⟩ hp
          · simp at h
            exact ⟨u, v, h.2⟩

theorem hasDoubleRevSolidus_take (l : Str) (n : Nat)
    (h : hasDoubleRevSolidus l = false) :
    hasDoubleRevSolidus (l.take n) = false := by
  by_contra hc
  have h2 : hasDoubleRevSolidus (l.take n) = true := by
    cases h3 : hasDoubleRevSolidus (l.take n)
    · exact absurd h3 hc
    · rfl
  rw [hasDoubleRevSolidus_iff] at h2
  obtain ⟨u, v, huv⟩ := h2
  have : hasDoubleRevSolidus l = true := by
    rw [hasDoubleRevSolidus_iff]
    refine ⟨u, v ++ l.drop n, ?_⟩
    conv_lhs => rw [← List.take_append_drop n l]
    simp [huv]
  rw [this] at h
  exact Bool.noConfusion h

theorem hasDoubleRevSolidus_drop (l : Str) (n : Nat)
    (h : hasDoubleRevSolidus l = false) :
    hasDoubleRevSolidus (l.drop n) = false := by
  by_contra hc
  have h2 : hasDoubleRevSolidus (l.drop n) = true := by
    cases h3 : hasDoubleRevSolidus (l.drop n)
    · exact absurd h3 hc
    · rfl
  rw [hasDoubleRevSolidus_iff] at h2
  obtain ⟨u, v, huv⟩ := h2
  have : hasDoubleRevSolidus l = true := by
    rw [hasDoubleRevSolidus_iff]
    refine ⟨l.take n ++ u, v, ?_⟩
    conv_lhs => rw [← List.take_append_drop n l]
    simp [huv]
  rw [this] at h
  exact Bool.noConfusion h

theorem unescape_id (l : Str) (hlb : lbrace ∉ l) (hrb : rbrace ∉ l)
    (hdb : hasDoubleRevSolidus l = false) : unescape l = l := by
  induction l with
  | nil => rfl
  | cons c1 rest ih =>
    cases rest with
    | nil => rfl
    | cons c2 rest2 =>
      have hnp : ¬(c1 = revSolidus ∧ c2 = revSolidus) := by
        intro hp
        rw [hasDoubleRevSolidus, if_pos hp] at hdb
        exact Bool.noConfusion hdb
      have hnl : ¬(c1 = revSolidus ∧ c2 = lbrace) := by
        rintro ⟨-, h⟩
        exact hlb (by simp [h])
      have hnr : ¬(c1 = revSolidus ∧ c2 = rbrace) := by
        rintro ⟨-, h⟩
        exact hrb (by simp [h])
      rw [unescape, if_neg hnp, if_neg hnl, if_neg hnr]
      have hdb2 : hasDoubleRevSolidus (c2 :: rest2) = false := by
        rw [hasDoubleRevSolidus, if_neg hnp] at hdb
        exact hdb
      rw [ih (fun h => hlb (List.mem_cons_of_mem _ h))
        (fun h => hrb (List.mem_cons_of_mem _ h)) hdb2]

theorem findCharFrom_eq_none (c : Char) (s : Str) (off : Nat) (h : c ∉ s) :
    findCharFrom c s off = none := by
  rw [findCharFrom, findIdxFrom]
  have hnone : (s.drop off).findIdx? (· == c) = none := by
    rw [List.findIdx?_eq_none_iff]
    intro x hx
    simp only [beq_eq_false_iff_ne, ne_eq]
    intro he
    exact h (he ▸ List.mem_of_mem_drop hx)
  rw [hnone]
  rfl

/-- C3 counterexample: the empty input contains neither brace, yet
tokenization does not succeed — it fails with `TextEmpty` at offset 0. -/
theorem tokenizer_literal_roundtrip_counterexample :
    Tokenize [] [] defaultConfig = .error ⟨0, .textEmpty⟩ := by rfl

/-- C3 amended: for any input containing neither `\x7b` nor `\x7d`, with at
least one non-whitespace character, whose first non-whitespace character is
not `[` (which would start a context), and containing no two consecutive
backslashes (which the unescaper would collapse), tokenization succeeds and
yields exactly one Literal token whose recovered text (the span sliced from
the input and unescaped) equals the input with leading and trailing Unicode
whitespace stripped. -/
theorem tokenizer_literal_roundtrip (s : Str) (c : Config)
    (hlb : lbrace ∉ s) (hrb : rbrace ∉ s)
    (hne : s.dropWhile isSpaceRune ≠ [])
    (hctx : (s.dropWhile isSpaceRune).headD (Char.ofNat 0) ≠ '[')
    (hdb : hasDoubleRevSolidus s = false) :
    Tokenize [] s c =
      .ok [⟨skipSpacesFrom s 0,
        trimEndIdx s (skipSpacesFrom s 0) s.length, .stringLiteral⟩] ∧
    tokenString s ⟨skipSpacesFrom s 0,
      trimEndIdx s (skipSpacesFrom s 0) s.length, .stringLiteral⟩ =
      trimGo s := by
  have hN : skipSpacesFrom s 0 = (s.takeWhile isSpaceRune).length := by
    simp [skipSpacesFrom]
  have hsum := length_takeWhile_add_dropWhile isSpaceRune s
  have hdne : (s.dropWhile isSpaceRune).length ≠ 0 := by
    simpa [List.length_eq_zero] using hne
  have hlt : skipSpacesFrom s 0 < s.length := by rw [hN]; omega
  have hdrop : s.drop (skipSpacesFrom s 0) = s.dropWhile isSpaceRune := by
    rw [hN, drop_takeWhile_length]
  have hchar : charAt s (skipSpacesFrom s 0) =
      (s.dropWhile isSpaceRune).headD (Char.ofNat 0) := by
    rw [charAt, getD_eq_headD_drop, hdrop]
  have hslice0 : sliceStr s (skipSpacesFrom s 0) s.length =
      s.dropWhile isSpaceRune := by
    rw [sliceStr, hdrop]
    rw [show s.length - skipSpacesFrom s 0 =
      (s.dropWhile isSpaceRune).length from by rw [hN]; omega]
    exact List.take_length _
  have he : trimEndIdx s (skipSpacesFrom s 0) s.length =
      s.length -
        ((s.dropWhile isSpaceRune).reverse.takeWhile isSpaceRune).length := by
    rw [trimEndIdx, hslice0]
  have hr : ((s.dropWhile isSpaceRune).reverse.takeWhile isSpaceRune).length ≤
      (s.dropWhile isSpaceRune).length := by
    have h1 := length_takeWhile_add_dropWhile isSpaceRune
      (s.dropWhile isSpaceRune).reverse
    have h2 : ((s.dropWhile isSpaceRune).reverse : Str).length =
        (s.dropWhile isSpaceRune).length := by simp
    omega
  have hsliceE : sliceStr s (skipSpacesFrom s 0)
      (trimEndIdx s (skipSpacesFrom s 0) s.length) = trimGo s := by
    rw [sliceStr, hdrop, he]
    rw [show s.length -
        ((s.dropWhile isSpaceRune).reverse.takeWhile isSpaceRune).length -
        skipSpacesFrom s 0 =
      (s.dropWhile isSpaceRune).length -
        ((s.dropWhile isSpaceRune).reverse.takeWhile isSpaceRune).length
      from by rw [hN]; omega]
    rw [take_reverse_takeWhile, trimGo]
  constructor
  · simp only [Tokenize, tokenizeBody]
    rw [if_neg (by omega)]
    rw [if_neg (by rw [hchar]; exact hctx)]
    rw [if_pos ⟨findCharFrom_eq_none _ _ _ hlb, findCharFrom_eq_none _ _ _ hrb⟩]
    simp
  · rw [tokenString]
    simp only []
    have hsub : ∀ x, x ∈ sliceStr s (skipSpacesFrom s 0)
        (trimEndIdx s (skipSpacesFrom s 0) s.length) → x ∈ s := by
      intro x hx
      rw [sliceStr] at hx
      exact List.drop_subset _ _ (List.take_subset _ _ hx)
    have hid : unescape (sliceStr s (skipSpacesFrom s 0)
        (trimEndIdx s (skipSpacesFrom s 0) s.length)) =
        sliceStr s (skipSpacesFrom s 0)
          (trimEndIdx s (skipSpacesFrom s 0) s.length) := by
      refine unescape_id _ (fun h => hlb (hsub _ h)) (fun h => hrb (hsub _ h)) ?_
      rw [sliceStr]
      exact hasDoubleRevSolidus_take _ _ (hasDoubleRevSolidus_drop _ _ hdb)
    split
    · rw [hid, hsliceE]
    · rw [hsliceE]

/-- Witness for the amended C3 at the concrete input `  hello world  `. -/
theorem tokenizer_literal_roundtrip_witness :
    Tokenize [] "  hello world  ".data defaultConfig =
      .ok [⟨2, 13, .stringLiteral⟩] ∧
    tokenString "  hello world  ".data ⟨2, 13, .stringLiteral⟩ =
      trimGo "  hello world  ".data :=
  tokenizer_literal_roundtrip "  hello world  ".data defaultConfig
    (by decide) (by decide) (by decide) (by decide) (by decide)

/-! ## Token-span well-formedness (claim C9) -/

theorem charAt_eq_getElem (s : Str) (i : Nat) (h : i < s.length) :
    charAt s i = s[i] := by
  rw [charAt, List.getD_eq_getElem?_getD, List.getElem?_eq_getElem h]
  rfl

theorem findIdxFrom_some_spec (p : Char → Bool) (s : Str) (off i : Nat)
    (h : findIdxFrom p s off = some i) :
    off ≤ i ∧ i < s.length ∧ p (charAt s i) = true := by
  rw [findIdxFrom] at h
  cases hF : (s.drop off).findIdx? p with
  | none => rw [hF] at h; exact Option.noConfusion h
  | some k =>
    rw [hF] at h
    simp only [Option.map_some', Option.some.injEq] at h
    obtain ⟨hk, hp, -⟩ := List.findIdx?_eq_some_iff_getElem.mp hF
    subst h
    have hklen : k < s.length - off := by
      simpa using hk
    refine ⟨Nat.le_add_right _ _, by omega, ?_⟩
    rw [charAt_eq_getElem s (off + k) (by omega), ← List.getElem_drop s]
    exact hp

theorem findBraceFrom_some_spec (s : Str) (off i : Nat)
    (h : findBraceFrom s off = some i) :
    off ≤ i ∧ i < s.length := by
  obtain ⟨h1, h2, -⟩ := findIdxFrom_some_spec _ s off i h
  exact ⟨h1, h2⟩

theorem findCharFrom_some_spec (c : Char) (s : Str) (off i : Nat)
    (h : findCharFrom c s off = some i) :
    off ≤ i ∧ i < s.length ∧ charAt s i = c := by
  obtain ⟨h1, h2, h3⟩ := findIdxFrom_some_spec _ s off i h
  exact ⟨h1, h2, by simpa using h3⟩

/-- Every position inside the trailing whitespace run is whitespace. -/
theorem space_of_ge_trim (s : Str) (k : Nat)
    (h1 : s.length - (s.reverse.takeWhile isSpaceRune).length ≤ k)
    (h2 : k < s.length) : isSpaceRune (charAt s k) = true := by
  have hdecomp : s = (s.reverse.dropWhile isSpaceRune).reverse ++
      (s.reverse.takeWhile isSpaceRune).reverse := by
    rw [← List.reverse_append, List.takeWhile_append_dropWhile,
      List.reverse_reverse]
  have hlenA : ((s.reverse.dropWhile isSpaceRune).reverse : Str).length =
      s.length - (s.reverse.takeWhile isSpaceRune).length := by
    have h3 := length_takeWhile_add_dropWhile isSpaceRune s.reverse
    simp only [List.length_reverse] at h3 ⊢
    omega
  rw [charAt_eq_getElem s k h2]
  have hmem : s[k] ∈ (s.reverse.takeWhile isSpaceRune).reverse := by
    have hEq := List.getElem_of_eq hdecomp h2
    rw [hEq, List.getElem_append_right (by omega)]
    exact List.getElem_mem _
  rw [List.mem_reverse] at hmem
  exact List.mem_takeWhile_imp hmem

/-- The guard invariant of the scan loop: the pending literal's start is
either 0, or sits right after a non-whitespace character, or has some
non-whitespace character at or after it. -/
def LitGuard (s : Str) (literalOffset : Nat) : Prop :=
  literalOffset = 0 ∨
    (0 < literalOffset ∧
      isSpaceRune (charAt s (literalOffset - 1)) = false) ∨
    (∃ j, literalOffset ≤ j ∧ j < s.length ∧
      isSpaceRune (charAt s j) = false)

theorem trimEnd_ge_of_guard (s : Str) (literalOffset : Nat)
    (hlen : literalOffset ≤ s.length) (hg : LitGuard s literalOffset) :
    literalOffset ≤ trimEndIdx s 0 s.length := by
  have hslice : sliceStr s 0 s.length = s := by
    simp [sliceStr]
  rw [trimEndIdx, hslice]
  have hrle : (s.reverse.takeWhile isSpaceRune).length ≤ s.length := by
    have h1 := length_takeWhile_add_dropWhile isSpaceRune s.reverse
    simp only [List.length_reverse] at h1
    omega
  rcases hg with h0 | ⟨hpos, hns⟩ | ⟨j, hj1, hj2, hj3⟩
  · omega
  · by_contra hc
    push_neg at hc
    have := space_of_ge_trim s (literalOffset - 1) (by omega) (by omega)
    rw [this] at hns
    exact Bool.noConfusion hns
  · by_contra hc
    push_neg at hc
    have := space_of_ge_trim s j (by omega) hj2
    rw [this] at hj3
    exact Bool.noConfusion hj3

/-- The fast-path trim never moves below the scan offset. -/
theorem trimEnd_ge_lo (s : Str) (lo : Nat) :
    lo ≤ trimEndIdx s lo s.length ∨ s.length ≤ lo := by
  by_cases h : s.length ≤ lo
  · exact Or.inr h
  · left
    rw [trimEndIdx]
    have h1 : ((sliceStr s lo s.length).reverse.takeWhile isSpaceRune).length ≤
        (sliceStr s lo s.length).length := by
      have h2 := length_takeWhile_add_dropWhile isSpaceRune
        (sliceStr s lo s.length).reverse
      simp only [List.length_reverse] at h2
      omega
    have h3 : (sliceStr s lo s.length : Str).length ≤ s.length - lo := by
      simp [sliceStr]
    omega

theorem spanOrdered_append (l : List Token) (t : Token)
    (hl : SpanOrdered l)
    (hlast : ∀ x, l.getLast? = some x → x.indexEnd ≤ t.indexStart)
    (ht : t.indexStart ≤ t.indexEnd) :
    SpanOrdered (l ++ [t]) := by
  obtain ⟨h1, h2⟩ := hl
  constructor
  · intro x hx
    rcases List.mem_append.mp hx with hx | hx
    · exact h1 x hx
    · rw [List.mem_singleton.mp hx]; exact ht
  · rw [List.chain'_append]
    refine ⟨h2, List.chain'_singleton _, ?_⟩
    intro x hx y hy
    simp only [List.head?_cons, Option.mem_def, Option.some.injEq] at hy
    subst hy
    exact hlast x hx

theorem spanOrdered_nil : SpanOrdered [] := by
  constructor
  · intro t ht; exact absurd ht (by simp)
  · exact List.chain'_nil

theorem matchDirective_plural_spec (d : Str) (c : Config) (v : Str)
    (h : matchDirective d c = some (.cardinalPluralStart, v)) :
    isSpaceRune (charAt d v.length) = true ∧ v.length < d.length := by
  have hmain : isSpaceRune (charAt d v.length) = true := by
    rw [matchDirective] at h
    by_cases h1 : d ≠ [] ∧ charAt d 0 = quoteChar
    · rw [if_pos h1] at h; exact absurd h (by simp)
    rw [if_neg h1] at h
    by_cases h2 : equalFold d c.magicConstants.number = true
    · rw [if_pos h2] at h; exact absurd h (by simp)
    rw [if_neg h2] at h
    by_cases h3 : equalFold d c.magicConstants.ordinalPlural.constant = true
    · rw [if_pos h3] at h; exact absurd h (by simp)
    rw [if_neg h3] at h
    by_cases h4 : equalFold d c.magicConstants.timeShort = true
    · rw [if_pos h4] at h; exact absurd h (by simp)
    rw [if_neg h4] at h
    by_cases h5 : equalFold d c.magicConstants.timeShortSeconds = true
    · rw [if_pos h5] at h; exact absurd h (by simp)
    rw [if_neg h5] at h
    by_cases h6 : equalFold d c.magicConstants.timeFullMonthAndDay = true
    · rw [if_pos h6] at h; exact absurd h (by simp)
    rw [if_neg h6] at h
    by_cases h7 : equalFold d c.magicConstants.timeShortMonthAndDay = true
    · rw [if_pos h7] at h; exact absurd h (by simp)
    rw [if_neg h7] at h
    by_cases h8 : equalFold d c.magicConstants.timeFullMonthAndYear = true
    · rw [if_pos h8] at h; exact absurd h (by simp)
    rw [if_neg h8] at h
    by_cases h9 : equalFold d c.magicConstants.timeWeekday = true
    · rw [if_pos h9] at h; exact absurd h (by simp)
    rw [if_neg h9] at h
    by_cases h10 : equalFold d c.magicConstants.timeDateAndShort = true
    · rw [if_pos h10] at h; exact absurd h (by simp)
    rw [if_neg h10] at h
    by_cases h11 : equalFold d c.magicConstants.timeYear = true
    · rw [if_pos h11] at h; exact absurd h (by simp)
    rw [if_neg h11] at h
    by_cases h12 : equalFold d c.magicConstants.timeFull = true
    · rw [if_pos h12] at h; exact absurd h (by simp)
    rw [if_neg h12] at h
    by_cases h13 : equalFold d c.magicConstants.currencyRounded = true
    · rw [if_pos h13] at h; exact absurd h (by simp)
    rw [if_neg h13] at h
    by_cases h14 : equalFold d c.magicConstants.currencyFull = true
    · rw [if_pos h14] at h; exact absurd h (by simp)
    rw [if_neg h14] at h
    by_cases h15 : equalFold d c.magicConstants.currencyCodeRounded = true
    · rw [if_pos h15] at h; exact absurd h (by simp)
    rw [if_neg h15] at h
    by_cases h16 : equalFold d c.magicConstants.currencyCodeFull = true
    · rw [if_pos h16] at h; exact absurd h (by simp)
    rw [if_neg h16] at h
    cases hf : c.magicConstants.genderPronouns.find? (fun w => equalFold d w) with
    | some w => rw [hf] at h; exact absurd h (by simp)
    | none =>
      rw [hf] at h
      simp only [ne_eq] at h
      by_cases hp : getPrefixEqualFold d c.magicConstants.cardinalPluralStart = []
      · rw [if_neg (not_not_intro hp)] at h
        exact absurd h (by simp)
      · rw [if_pos hp] at h
        by_cases hsp : isSpaceRune (charAt d
            (getPrefixEqualFold d c.magicConstants.cardinalPluralStart).length) =
            true
        · rw [if_pos hsp] at h
          simp only [Option.some.injEq, Prod.mk.injEq, true_and] at h
          subst h
          exact hsp
        · rw [if_neg hsp] at h; exact absurd h (by simp)
  refine ⟨hmain, ?_⟩
  by_contra hlen
  push_neg at hlen
  have hdef : charAt d v.length = Char.ofNat 0 := by
    rw [charAt, List.getD_eq_getElem?_getD, List.getElem?_eq_none hlen]
    rfl
  rw [hdef] at hmain
  exact absurd hmain (by decide)

theorem appendDirectiveTail_ok (buffer : List Token) (iDir iClose : Nat)
    (tp : TokenType) (b2 : List Token) (off2 : Nat)
    (h : appendDirectiveTail buffer iDir iClose tp = .ok (b2, off2)) :
    b2 = buffer ++ [⟨iDir, iClose + 1, tp⟩] ∧ off2 = iClose + 1 := by
  rw [appendDirectiveTail] at h
  cases hl : buffer.getLast? with
  | none =>
    rw [hl] at h
    simp only [Except.ok.injEq, Prod.mk.injEq] at h
    exact ⟨h.1.symm, h.2.symm⟩
  | some t =>
    rw [hl] at h
    simp only [] at h
    by_cases ht : t.type = .cardinalPluralStart
    · rw [if_pos ht] at h; exact absurd h (by simp)
    · rw [if_neg ht] at h
      simp only [Except.ok.injEq, Prod.mk.injEq] at h
      exact ⟨h.1.symm, h.2.symm⟩

theorem appendDirective_ok (buffer : List Token) (iDir iClose : Nat)
    (tp : TokenType) (directive : Str) (b2 : List Token) (off2 : Nat)
    (h : appendDirective buffer iDir iClose tp directive = .ok (b2, off2)) :
    b2 = buffer ++ [⟨iDir, iClose + 1, tp⟩] ∧ off2 = iClose + 1 := by
  rw [appendDirective] at h
  by_cases hsp : tp = .stringPlaceholder
  · rw [if_pos hsp] at h
    cases hv : validateStringPlaceholder directive with
    | some e => rw [hv] at h; exact absurd h (by simp)
    | none => rw [hv] at h; exact appendDirectiveTail_ok _ _ _ _ _ _ h
  · rw [if_neg hsp] at h
    exact appendDirectiveTail_ok _ _ _ _ _ _ h

/-- Flushing a pending literal run preserves the buffer invariants. -/
theorem flush_literal_inv (buffer : List Token) (litOff iDir : Nat)
    (hso : SpanOrdered buffer)
    (hlast : ∀ x, buffer.getLast? = some x → x.indexEnd ≤ litOff)
    (hle : litOff ≤ iDir) :
    SpanOrdered
      (if litOff ≠ iDir then buffer ++ [⟨litOff, iDir, .stringLiteral⟩]
        else buffer) ∧
    (∀ x, (if litOff ≠ iDir then buffer ++ [⟨litOff, iDir, .stringLiteral⟩]
        else buffer).getLast? = some x → x.indexEnd ≤ iDir) := by
  by_cases hne : litOff ≠ iDir
  · rw [if_pos hne]
    constructor
    · exact spanOrdered_append _ _ hso hlast hle
    · intro x hx
      rw [List.getLast?_concat] at hx
      cases hx
      exact Nat.le_refl _
  · rw [if_neg hne]
    push_neg at hne
    subst hne
    exact ⟨hso, hlast⟩

theorem rbrace_not_space : isSpaceRune rbrace = false := by decide

/-- The scan loop preserves span well-formedness: whatever token list it
returns successfully is span-ordered. -/
theorem tokenizeScan_spanOrdered (c : Config) (s : Str) :
    ∀ (fuel offset literalOffset : Nat) (inPlural : Bool)
      (buffer toks : List Token),
      SpanOrdered buffer →
      (∀ x, buffer.getLast? = some x → x.indexEnd ≤ literalOffset) →
      literalOffset ≤ offset →
      offset ≤ s.length →
      LitGuard s literalOffset →
      tokenizeScan c s fuel offset literalOffset inPlural buffer = .ok toks →
      SpanOrdered toks := by
  intro fuel
  induction fuel with
  | zero =>
    intro offset litOff inPlural buffer toks _ _ _ _ _ hrun
    exact absurd hrun (by simp [tokenizeScan])
  | succ fuel ih =>
    intro offset litOff inPlural buffer toks hso hlast hlo hoff hg hrun
    rw [tokenizeScan] at hrun
    cases hfind : findBraceFrom s offset with
    | none =>
      rw [hfind] at hrun
      simp only [] at hrun
      by_cases hend : litOff ≠ s.length
      · rw [if_pos hend] at hrun
        simp only [Except.ok.injEq] at hrun
        subst hrun
        exact spanOrdered_append _ _ hso hlast
          (trimEnd_ge_of_guard s litOff (by omega) hg)
      · rw [if_neg hend] at hrun
        simp only [Except.ok.injEq] at hrun
        subst hrun
        exact hso
    | some iDir =>
      rw [hfind] at hrun
      simp only [] at hrun
      obtain ⟨hoffle, hilt⟩ := findBraceFrom_some_spec s offset iDir hfind
      by_cases hch : charAt s iDir = rbrace
      · rw [if_pos hch] at hrun
        cases hp : inPlural with
        | false =>
          subst hp
          simp only [Bool.not_false, if_pos] at hrun
          by_cases hesc : escapedAt s iDir = true
          · rw [if_pos hesc] at hrun
            exact ih (iDir + 1) litOff false buffer toks hso hlast
              (by omega) (by omega) hg hrun
          · rw [if_neg hesc] at hrun
            exact absurd hrun (by simp)
        | true =>
          subst hp
          simp only [Bool.not_true, Bool.false_eq_true, if_false] at hrun
          obtain ⟨hso1, hlast1⟩ :=
            flush_literal_inv buffer litOff iDir hso hlast (by omega)
          cases hl : (if litOff ≠ iDir then
              buffer ++ [⟨litOff, iDir, .stringLiteral⟩] else
              buffer).getLast? with
          | none =>
            rw [hl] at hrun
            exact absurd hrun (by simp)
          | some t =>
            rw [hl] at hrun
            simp only [] at hrun
            by_cases ht : t.type = .cardinalPluralStart
            · rw [if_pos ht] at hrun
              exact absurd hrun (by simp)
            · rw [if_neg ht] at hrun
              refine ih (iDir + 1) (iDir + 1) false _ toks ?_ ?_
                (Nat.le_refl _) (by omega) ?_ hrun
              · refine spanOrdered_append _ _ hso1 ?_
                  (show iDir ≤ iDir + 1 by omega)
                intro x hx
                exact hlast1 x hx
              · intro x hx
                rw [List.getLast?_concat] at hx
                cases hx
                exact Nat.le_refl _
              · refine Or.inr (Or.inl ⟨by omega, ?_⟩)
                rw [show iDir + 1 - 1 = iDir from by omega, hch]
                exact rbrace_not_space
      · rw [if_neg hch] at hrun
        by_cases hesc : escapedAt s iDir = true
        · rw [if_pos hesc] at hrun
          exact ih (iDir + 1) litOff inPlural buffer toks hso hlast
            (by omega) (by omega) hg hrun
        · rw [if_neg hesc] at hrun
          obtain ⟨hso1, hlast1⟩ :=
            flush_literal_inv buffer litOff iDir hso hlast (by omega)
          cases hclose : findCharFrom rbrace s (iDir + 1) with
          | none =>
            rw [hclose] at hrun
            exact absurd hrun (by simp)
          | some iClose =>
            rw [hclose] at hrun
            simp only [] at hrun
            obtain ⟨hige, hicl, hiceq⟩ :=
              findCharFrom_some_spec rbrace s (iDir + 1) iClose hclose
            cases hmatch : matchDirective (sliceStr s (iDir + 1) iClose) c with
            | none =>
              rw [hmatch] at hrun
              exact absurd hrun (by simp)
            | some tv =>
              rw [hmatch] at hrun
              obtain ⟨tp, value⟩ := tv
              simp only [] at hrun
              by_cases htp : tp = .cardinalPluralStart
              · rw [if_pos htp] at hrun
                cases hp : inPlural with
                | true =>
                  subst hp
                  exact absurd hrun (by simp)
                | false =>
                  subst hp
                  simp only [Bool.false_eq_true, if_false] at hrun
                  subst htp
                  obtain ⟨-, hvlen⟩ := matchDirective_plural_spec
                    (sliceStr s (iDir + 1) iClose) c value hmatch
                  have hdlen : (sliceStr s (iDir + 1) iClose : Str).length =
                      iClose - (iDir + 1) := by
                    simp only [sliceStr, List.length_take, List.length_drop]
                    omega
                  have hnoff : iDir + value.length + 2 ≤ iClose := by omega
                  refine ih (iDir + value.length + 2) (iDir + value.length + 2)
                    true _ toks ?_ ?_ (Nat.le_refl _) (by omega) ?_ hrun
                  · refine spanOrdered_append _ _ hso1 ?_
                      (show iDir ≤ iDir + value.length + 2 by omega)
                    intro x hx
                    exact hlast1 x hx
                  · intro x hx
                    rw [List.getLast?_concat] at hx
                    cases hx
                    exact Nat.le_refl _
                  · refine Or.inr (Or.inr ⟨iClose, by omega, by omega, ?_⟩)
                    rw [hiceq]
                    exact rbrace_not_space
              · rw [if_neg htp] at hrun
                cases happ : appendDirective
                    (if litOff ≠ iDir then
                      buffer ++ [⟨litOff, iDir, .stringLiteral⟩] else buffer)
                    iDir iClose tp (sliceStr s (iDir + 1) iClose) with
                | error e =>
                  rw [happ] at hrun
                  exact absurd hrun (by simp)
                | ok pr =>
                  rw [happ] at hrun
                  obtain ⟨b2, off2⟩ := pr
                  obtain ⟨hb2, hoff2⟩ :=
                    appendDirective_ok _ _ _ _ _ _ _ happ
                  subst hb2
                  subst hoff2
                  simp only [] at hrun
                  refine ih (iClose + 1) (iClose + 1) inPlural _ toks ?_ ?_
                    (Nat.le_refl _) (by omega) ?_ hrun
                  · refine spanOrdered_append _ _ hso1 ?_
                      (show iDir ≤ iClose + 1 by omega)
                    intro x hx
                    exact hlast1 x hx
                  · intro x hx
                    rw [List.getLast?_concat] at hx
                    cases hx
                    exact Nat.le_refl _
                  · refine Or.inr (Or.inl ⟨by omega, ?_⟩)
                    rw [show iClose + 1 - 1 = iClose from by omega, hiceq]
                    exact rbrace_not_space

theorem charAt_skipSpaces_not_space (s : Str) (off : Nat)
    (h : skipSpacesFrom s off < s.length) :
    isSpaceRune (charAt s (skipSpacesFrom s off)) = false := by
  have hdrop : s.drop (skipSpacesFrom s off) =
      (s.drop off).dropWhile isSpaceRune := by
    rw [skipSpacesFrom, ← List.drop_drop, drop_takeWhile_length]
  have hne : s.drop (skipSpacesFrom s off) ≠ [] := by
    intro hnil
    have := List.drop_eq_nil_iff.mp hnil
    omega
  rw [charAt, getD_eq_headD_drop, hdrop]
  rw [hdrop] at hne
  cases hd : (s.drop off).dropWhile isSpaceRune with
  | nil => exact absurd hd hne
  | cons a l =>
    have h7 := List.head?_dropWhile_not isSpaceRune (s.drop off)
    rw [hd] at h7
    simp only [List.head?_cons] at h7
    simpa using h7

theorem tokenizeBody_spanOrdered (buffer : List Token) (s : Str) (c : Config)
    (offset : Nat) (toks : List Token)
    (hso : SpanOrdered buffer)
    (hlast : ∀ x, buffer.getLast? = some x → x.indexEnd ≤ offset)
    (hofflt : offset < s.length)
    (hns : isSpaceRune (charAt s offset) = false)
    (hrun : tokenizeBody buffer s c offset = .ok toks) :
    SpanOrdered toks := by
  rw [tokenizeBody] at hrun
  by_cases hfast : findCharFrom lbrace s offset = none ∧
      findCharFrom rbrace s offset = none
  · rw [if_pos hfast] at hrun
    simp only [Except.ok.injEq] at hrun
    subst hrun
    refine spanOrdered_append _ _ hso hlast ?_
    rcases trimEnd_ge_lo s offset with h | h
    · exact h
    · omega
  · rw [if_neg hfast] at hrun
    exact tokenizeScan_spanOrdered c s (s.length + 1) offset offset false
      buffer toks hso hlast (Nat.le_refl _) (by omega)
      (Or.inr (Or.inr ⟨offset, Nat.le_refl _, hofflt, hns⟩)) hrun

/-- C9: For every input on which tokenization succeeds, the returned token
sequence satisfies: every token has `IndexStart ≤ IndexEnd`, and for every
pair of consecutive tokens the earlier token's `IndexEnd` is at most the
later token's `IndexStart` — so no two tokens' half-open spans overlap and
the sequence is ordered by position. -/
theorem tokenizer_span_ordered (s : Str) (c : Config) (toks : List Token)
    (h : Tokenize [] s c = .ok toks) : SpanOrdered toks := by
  rw [Tokenize] at h
  simp only [] at h
  by_cases h1 : s.length ≤ skipSpacesFrom s 0
  · rw [if_pos h1] at h
    exact absurd h (by simp)
  · rw [if_neg h1] at h
    push_neg at h1
    by_cases h2 : charAt s (skipSpacesFrom s 0) = '['
    · rw [if_pos h2] at h
      cases h3 : findCharFrom ']' s (skipSpacesFrom s 0 + 1) with
      | none =>
        rw [h3] at h
        exact absurd h (by simp)
      | some iCtx =>
        rw [h3] at h
        simp only [] at h
        obtain ⟨hge, hlt', -⟩ := findCharFrom_some_spec ']' s _ iCtx h3
        by_cases h4 : (sliceStr s (skipSpacesFrom s 0 + 1) iCtx).all isSpaceRune
        · rw [if_pos h4] at h
          exact absurd h (by simp)
        · rw [if_neg h4] at h
          by_cases h5 : (sliceStr s (skipSpacesFrom s 0 + 1) iCtx).any
              (fun ch => ch == lbrace || ch == rbrace || ch == '[' ||
                ch == ']' || ch == revSolidus)
          · rw [if_pos h5] at h
            exact absurd h (by simp)
          · rw [if_neg h5] at h
            by_cases h6 : s.length ≤ skipSpacesFrom s (iCtx + 1)
            · rw [if_pos h6] at h
              exact absurd h (by simp)
            · rw [if_neg h6] at h
              push_neg at h6
              simp only [List.nil_append] at h
              refine tokenizeBody_spanOrdered _ s c _ toks ?_ ?_ h6
                (charAt_skipSpaces_not_space s (iCtx + 1) h6) h
              · constructor
                · intro t ht
                  rw [List.mem_singleton.mp ht]
                  show skipSpacesFrom s 0 ≤ iCtx + 1
                  omega
                · exact List.chain'_singleton _
              · intro x hx
                simp only [List.getLast?_singleton, Option.some.injEq] at hx
                subst hx
                
                show iCtx + 1 ≤ skipSpacesFrom s (iCtx + 1)
                exact Nat.le_add_right _ _
    · rw [if_neg h2] at h
      refine tokenizeBody_spanOrdered [] s c _ toks spanOrdered_nil ?_ h1
        (charAt_skipSpaces_not_space s 0 h1) h
      intro x hx
      exact absurd hx (by simp)

/-- Witness for C9 at the concrete input
`You're \x7b4th\x7d out of \x7b2 contenders\x7d`. -/
theorem tokenizer_span_ordered_witness :
    SpanOrdered [⟨0, 7, .stringLiteral⟩, ⟨7, 12, .ordinalPlural⟩,
      ⟨12, 20, .stringLiteral⟩, ⟨20, 23, .cardinalPluralStart⟩,
      ⟨23, 33, .stringLiteral⟩, ⟨33, 34, .cardinalPluralEnd⟩] :=
  tokenizer_span_ordered
    "You\x27re \x7b4th\x7d out of \x7b2 contenders\x7d".data defaultConfig _
    (by rfl)

end TikSpec
